import Mathlib

/-!
Package jsonutil: streaming navigation to a nested JSON array.

A shallow embedding of `slice_iterator.go` (`SliceIterator`, `trackPath`,
`readArrayOrObject`, `expectDelim`, `errIterator`) together with the part of
`encoding/json`'s `Decoder` the package consumes (`Token`, `More`, `Decode`),
followed by theorems about the embedded functions.

The decoder is the package's only collaborator.  It is embedded as the stream of
lexemes it still has to read, plus the error it reports once that stream is used
up (`io.EOF` for input that simply ends, another error for input that is broken at
that point).  `Decoder.Token` converts every number it reads to a `float64`: on a
number literal outside that range it fails with a `*json.UnmarshalTypeError` and
moves past the literal, with the rest of the input still to come.  A decoder that
limits the nesting of its input fails in the same way on the delimiter that would open
a level beyond the limit.  Both are lexemes of their own in the stream (`huge`,
`deep`).  Commas and colons are not tokens: `Decoder.Token` never returns them.  Go's
`error` is `Option Error`, `nil` being `none`.
-/

namespace Jsonutil

/-! ## Definitions -/

/-- The four values of `json.Delim`. -/
inductive Delim
  | lbrace   -- '{'
  | rbrace   -- '}'
  | lbrack   -- '['
  | rbrack   -- ']'
deriving DecidableEq, Repr

/-- A lexeme of the input.  All but the last two are the values of `json.Token`: a
delimiter, or a scalar (string, number, boolean, null); the payload of a number is
never inspected by the package and is kept as an integer.  The last two stand in
well-formed input and make `Decoder.Token` fail instead of returning a token: `huge`
is a number literal whose value is outside the `float64` range (such as `1e400`),
`deep` an opening delimiter that would open a level beyond the nesting limit of the
decoder reading the input. -/
inductive Token
  | delim (d : Delim)
  | str (s : String)
  | num (n : Int)
  | bool (b : Bool)
  | null
  | huge (lit : String)
  | deep (d : Delim)
deriving DecidableEq, Repr

/-- The error values that can flow through the package.  Go compares errors by
identity, so every origin is its own constructor. -/
inductive Error
  | notFound                                      -- the package variable `ErrNotFound`
  | eof                                           -- `io.EOF`
  | unexpectedEOF                                 -- `io.ErrUnexpectedEOF`
  | malformed                                     -- a `*json.SyntaxError` of the decoder
  | unmarshalType                                 -- a `*json.UnmarshalTypeError` of the decoder
  | maxDepth                                      -- the decoder's error on nesting beyond its limit
  | fieldName (got : Token)                       -- `fmt.Errorf` in `trackPath` (field name expected)
  | unexpectedToken (expected : Delim) (got : Token)  -- `fmt.Errorf` in `expectDelim`
  | other (code : Nat)                            -- any further error (reader, destination)
deriving DecidableEq, Repr

/-- The package variable `ErrNotFound`. -/
def ErrNotFound : Error := .notFound

/-- A JSON value.  Object fields are kept in document order, duplicates included.
A number is `num` when its value fits a `float64` and `huge`, with its literal, when
it does not. -/
inductive Value
  | null
  | bool (b : Bool)
  | num (n : Int)
  | str (s : String)
  | huge (lit : String)
  | arr (es : List Value)
  | obj (fs : List (String × Value))

mutual
/-- The lexemes of a well-formed value, in the order the decoder reads them. -/
def tokens : Value → List Token
  | .null => [.null]
  | .bool b => [.bool b]
  | .num n => [.num n]
  | .str s => [.str s]
  | .huge l => [.huge l]
  | .arr es => .delim .lbrack :: (elemTokens es ++ [.delim .rbrack])
  | .obj fs => .delim .lbrace :: (fieldTokens fs ++ [.delim .rbrace])
/-- The tokens of the elements of an array, without the brackets. -/
def elemTokens : List Value → List Token
  | [] => []
  | v :: vs => tokens v ++ elemTokens vs
/-- The tokens of the fields of an object, without the braces. -/
def fieldTokens : List (String × Value) → List Token
  | [] => []
  | (k, v) :: fs => .str k :: (tokens v ++ fieldTokens fs)
end

/-- State of a `*json.Decoder`: the lexemes still to be read and the error reported
once they are used up. -/
structure Decoder where
  toks : List Token
  fail : Error
deriving DecidableEq, Repr

/-- `dec.Token()`: the next token, or the decoder's error when none is left.  A number
outside the `float64` range is read and makes the call fail: the decoder is past it
afterwards.  So does a delimiter that opens a level beyond the decoder's nesting
limit. -/
def Decoder.Token (dec : Decoder) : Except Error Token × Decoder :=
  match dec.toks with
  | [] => (.error dec.fail, dec)
  | .huge _ :: ts => (.error .unmarshalType, ⟨ts, dec.fail⟩)
  | .deep _ :: ts => (.error .maxDepth, ⟨ts, dec.fail⟩)
  | t :: ts => (.ok t, ⟨ts, dec.fail⟩)

/-- `dec.More()`: there is a next token and it is neither `]` nor `}`.  Consumes nothing. -/
def Decoder.More (dec : Decoder) : Bool :=
  match dec.toks with
  | [] => false
  | .delim .rbrack :: _ => false
  | .delim .rbrace :: _ => false
  | _ :: _ => true

/-- What `Decode` reports when the input stops in the middle of a value. -/
def midValue (fail : Error) : Error :=
  if fail = .eof then .unexpectedEOF else fail

mutual
/-- Read one complete value off the token stream.  The first argument bounds the
recursion: a round that reads no token is followed by one that does, and `Decode`
passes twice the number of tokens plus one. -/
def parseValue (fail : Error) : Nat → List Token → Except Error (Value × List Token)
  | 0, _ => .error .malformed
  | _ + 1, [] => .error (midValue fail)
  | _ + 1, .null :: ts => .ok (.null, ts)
  | _ + 1, .bool b :: ts => .ok (.bool b, ts)
  | _ + 1, .num n :: ts => .ok (.num n, ts)
  | _ + 1, .str s :: ts => .ok (.str s, ts)
  | _ + 1, .huge l :: ts => .ok (.huge l, ts)
  | _ + 1, .deep _ :: _ => .error .maxDepth
  | n + 1, .delim .lbrack :: ts =>
    match parseElems fail n ts with
    | .ok (es, rest) => .ok (.arr es, rest)
    | .error e => .error e
  | n + 1, .delim .lbrace :: ts =>
    match parseFields fail n ts with
    | .ok (fs, rest) => .ok (.obj fs, rest)
    | .error e => .error e
  | _ + 1, .delim .rbrack :: _ => .error .malformed
  | _ + 1, .delim .rbrace :: _ => .error .malformed
/-- Read array elements up to and including the closing `]`. -/
def parseElems (fail : Error) : Nat → List Token → Except Error (List Value × List Token)
  | 0, _ => .error .malformed
  | _ + 1, .delim .rbrack :: ts => .ok ([], ts)
  | n + 1, ts =>
    match parseValue fail n ts with
    | .error e => .error e
    | .ok (v, rest) =>
      match parseElems fail n rest with
      | .ok (vs, rest2) => .ok (v :: vs, rest2)
      | .error e => .error e
/-- Read object fields up to and including the closing `}`. -/
def parseFields (fail : Error) : Nat → List Token → Except Error (List (String × Value) × List Token)
  | 0, _ => .error .malformed
  | _ + 1, [] => .error (midValue fail)
  | _ + 1, .delim .rbrace :: ts => .ok ([], ts)
  | n + 1, .str k :: ts =>
    match parseValue fail n ts with
    | .error e => .error e
    | .ok (v, rest) =>
      match parseFields fail n rest with
      | .ok (fs, rest2) => .ok ((k, v) :: fs, rest2)
      | .error e => .error e
  | _ + 1, _ :: _ => .error .malformed
end

/-- A destination as `getDst` returns it, seen through what `Decode` reports when it
stores a value there: `none` when the value is accepted, the error otherwise (a
type mismatch, or whatever a custom unmarshaller returns). -/
abbrev Dst := Value → Option Error

/-- Outcome of `dec.Decode(dst)`: the error, the value handed to the destination
(if one was read), and the decoder afterwards. -/
structure Decoded where
  err : Option Error
  stored : Option Value
  dec : Decoder

/-- `dec.Decode(dst)`: reads exactly one value and stores it in the destination; what
the destination makes of the value, a number outside its range included, is the
destination's report.  When no value can be read the position is left where it was. -/
def Decoder.Decode (dec : Decoder) (dst : Dst) : Decoded :=
  match dec.toks with
  | [] => ⟨some dec.fail, none, dec⟩
  | t :: ts =>
    match parseValue dec.fail (2 * ts.length + 3) (t :: ts) with
    | .ok (v, rest) => ⟨dst v, some v, ⟨rest, dec.fail⟩⟩
    | .error e => ⟨some e, none, dec⟩

/-- Go: `expectDelim(dec, expected)`.  Reads one token; fails with the decoder's error,
or with a fresh error when the token is not the expected delimiter. -/
def expectDelim (dec : Decoder) (expected : Delim) : Option Error × Decoder :=
  match dec.Token with
  | (.error err, dec1) => (some err, dec1)
  | (.ok got, dec1) =>
    if got ≠ .delim expected then (some (.unexpectedToken expected got), dec1)
    else (none, dec1)

/-- The loop `for tokenCount > 0` of `readArrayOrObject`, on the lexemes the decoder
still holds: every round reads one token, `{` and `[` increment the counter, `}` and
`]` decrement it, any other token leaves it; a read that fails returns the error.
Returns the error and the lexemes left.
(`tokenCount` is a Go `int`; it cannot wrap, one token is read per increment.) -/
def readLoop (fail : Error) : Nat → List Token → Option Error × List Token
  | 0, ts => (none, ts)
  | _ + 1, [] => (some fail, [])
  | _ + 1, .huge _ :: ts => (some .unmarshalType, ts)
  | _ + 1, .deep _ :: ts => (some .maxDepth, ts)
  | c + 1, .delim .lbrace :: ts => readLoop fail (c + 2) ts
  | c + 1, .delim .lbrack :: ts => readLoop fail (c + 2) ts
  | c + 1, .delim .rbrace :: ts => readLoop fail c ts
  | c + 1, .delim .rbrack :: ts => readLoop fail c ts
  | c + 1, _ :: ts => readLoop fail (c + 1) ts

/-- Go: `readArrayOrObject(dec)`, with `tokenCount := 1`. -/
def readArrayOrObject (dec : Decoder) : Option Error × Decoder :=
  ((readLoop dec.fail 1 dec.toks).1, ⟨(readLoop dec.fail 1 dec.toks).2, dec.fail⟩)

/-- The loop `readLoop` never hands back more tokens than it was given. -/
theorem readLoop_length_le (fail : Error) (c : Nat) (ts : List Token) :
    (readLoop fail c ts).2.length ≤ ts.length := by
  induction ts generalizing c with
  | nil => cases c <;> simp [readLoop]
  | cons t ts ih =>
    cases c with
    | zero => simp [readLoop]
    | succ c =>
      rcases t with (d | s | n | b | _ | l | d)
      · cases d <;> simp only [readLoop, List.length_cons] <;>
          exact Nat.le_succ_of_le (ih _)
      · simp only [readLoop, List.length_cons]; exact Nat.le_succ_of_le (ih _)
      · simp only [readLoop, List.length_cons]; exact Nat.le_succ_of_le (ih _)
      · simp only [readLoop, List.length_cons]; exact Nat.le_succ_of_le (ih _)
      · simp only [readLoop, List.length_cons]; exact Nat.le_succ_of_le (ih _)
      · simp [readLoop]
      · simp [readLoop]

/-- How the field-scanning loop of `trackPath` (the inner `for`) is left. -/
inductive Scan
  | ret (err : Error) (dec : Decoder)   -- `return err`
  | closed (dec : Decoder)              -- `break` on reading `}`: the field is not in this object
  | found (dec : Decoder)               -- `break` after `foundCount = i + 1`
deriving DecidableEq, Repr

/-- The inner `for` of `trackPath` on a decoder holding `toks` and failing with `fail`,
searching `field` among the fields of the object whose `{` has just been read.  It
ends because every round reads at least one token. -/
def scanFields (field : String) (fail : Error) : List Token → Scan
  | [] => .ret fail ⟨[], fail⟩                                -- `dec.Token()` fails
  | .huge _ :: ts => .ret .unmarshalType ⟨ts, fail⟩           -- `dec.Token()` fails
  | .deep _ :: ts => .ret .maxDepth ⟨ts, fail⟩                -- `dec.Token()` fails
  | .delim .rbrace :: ts => .closed ⟨ts, fail⟩
  | .str got :: ts =>
    if got = field then .found ⟨ts, fail⟩
    else
      match ts with
      | [] => .ret fail ⟨[], fail⟩                            -- second `dec.Token()` fails
      | .huge _ :: ts2 => .ret .unmarshalType ⟨ts2, fail⟩     -- second `dec.Token()` fails
      | .deep _ :: ts2 => .ret .maxDepth ⟨ts2, fail⟩          -- second `dec.Token()` fails
      | .delim _ :: ts2 =>
        match h : readArrayOrObject ⟨ts2, fail⟩ with
        | (some err, dec3) => .ret err dec3
        | (none, dec3) =>
          have : dec3.toks.length ≤ ts2.length := by
            have hl := readLoop_length_le fail 1 ts2
            have h2 := congrArg (fun r => r.2.toks) h
            simp only [readArrayOrObject] at h2
            rw [h2] at hl
            exact hl
          scanFields field fail dec3.toks
      | _ :: ts2 => scanFields field fail ts2
  | t :: ts => .ret (.fieldName t) ⟨ts, fail⟩
termination_by ts => ts.length
decreasing_by all_goals simp_wf; all_goals omega

/-- The check after the outer loop of `trackPath`. -/
def finish (len foundCount : Nat) : Option Error :=
  if foundCount = len then none else some ErrNotFound

/-- The loop `for i, field := range path` of `trackPath`: `len` is `len(path)`, `i` the
index of the segment at the head of the segments still to visit. -/
def trackLoop (len : Nat) : Nat → List String → Nat → Decoder → Option Error × Decoder
  | _, [], foundCount, dec => (finish len foundCount, dec)
  | i, field :: rest, foundCount, dec =>
    match expectDelim dec .lbrace with
    | (some _, dec1) => (finish len foundCount, dec1)                  -- `break`
    | (none, dec1) =>
      match scanFields field dec1.fail dec1.toks with
      | .ret err dec2 => (some err, dec2)
      | .closed dec2 => trackLoop len (i + 1) rest foundCount dec2
      | .found dec2 => trackLoop len (i + 1) rest (i + 1) dec2

/-- Go: `trackPath(dec, path)`. -/
def trackPath (dec : Decoder) (path : List String) : Option Error × Decoder :=
  if path.length = 0 then (none, dec)
  else trackLoop path.length 0 path 0 dec

/-- The function value `SliceIterator` returns: the closure of `errIterator`, or the
iterating closure over the decoder and `getDst`. -/
inductive Cursor
  | failed (err : Error)
  | iter (dec : Decoder) (getDst : Dst)

/-- Go: `errIterator(err)`. -/
def errIterator (err : Error) : Cursor := .failed err

/-- Go: `SliceIterator(r, getDst, path...)`; `r` is given as the decoder over it. -/
def SliceIterator (r : Decoder) (getDst : Dst) (path : List String) : Cursor :=
  match trackPath r path with
  | (some err, _) => errIterator err
  | (none, dec1) =>
    match expectDelim dec1 .lbrack with
    | (some err, _) => errIterator err
    | (none, dec2) => .iter dec2 getDst

/-- What one invocation of the cursor returns and does: the pair `(bool, error)`, whether
`getDst` was called, and the value `Decode` handed to the destination. -/
structure Pull where
  more : Bool
  err : Option Error
  calledDst : Bool
  stored : Option Value

/-- One invocation of the cursor: its outcome and the cursor as it is afterwards. -/
def Cursor.call : Cursor → Pull × Cursor
  | .failed err => (⟨false, some err, false, none⟩, .failed err)
  | .iter dec getDst =>
    if !dec.More then
      (⟨false, (expectDelim dec .rbrack).1, false, none⟩, .iter (expectDelim dec .rbrack).2 getDst)
    else
      let r := dec.Decode getDst
      if r.err = some .eof then (⟨false, none, true, r.stored⟩, .iter r.dec getDst)
      else (⟨true, r.err, true, r.stored⟩, .iter r.dec getDst)

/-- The cursor after `k` invocations. -/
def Cursor.after : Nat → Cursor → Cursor
  | 0, c => c
  | k + 1, c => Cursor.after k c.call.2

/-- The outcome of invocation number `k + 1`. -/
def Cursor.nth (k : Nat) (c : Cursor) : Pull := (c.after k).call.1

/-- The value is an array or an object. -/
def Value.isContainer : Value → Bool
  | .arr _ => true
  | .obj _ => true
  | _ => false

/-- The value of the first field named `p`, as the scan of an object meets it. -/
def lookup (p : String) : List (String × Value) → Option Value
  | [] => none
  | (k, v) :: fs => if k = p then some v else lookup p fs

/-- The fields that follow the first field named `p`. -/
def fieldsAfter (p : String) : List (String × Value) → List (String × Value)
  | [] => []
  | (k, _) :: fs => if k = p then fs else fieldsAfter p fs

/-- Where following a path of field names through a value leads. -/
inductive Descent
  | found (v : Value)   -- every segment names a field of the object reached so far
  | missingKey          -- an object is reached that has no field named by the next segment
  | notObject           -- a value that is not an object is reached with segments left

/-- Follow `path` from the value `v`, through the first occurrence of each field. -/
def descend : List String → Value → Descent
  | [], v => .found v
  | p :: ps, .obj fs =>
    match lookup p fs with
    | some v => descend ps v
    | none => .missingKey
  | _ :: _, _ => .notObject

/-- The tokens that follow the value reached by `path` in the stream `tokens d ++ tail`. -/
def restAfter : List String → Value → List Token → List Token
  | [], _, tail => tail
  | p :: ps, .obj fs, tail =>
    match lookup p fs with
    | some v => restAfter ps v (fieldTokens (fieldsAfter p fs) ++ .delim .rbrace :: tail)
    | none => tail
  | _ :: _, _, tail => tail

/-- The stream starts with `{`. -/
def startsObject : List Token → Bool
  | .delim .lbrace :: _ => true
  | _ => false

/-- Outcome `(true, nil)` or what the destination reports, for an element handed to it. -/
def elemPull (g : Dst) (v : Value) : Pull :=
  if g v = some .eof then ⟨false, none, true, some v⟩ else ⟨true, g v, true, some v⟩

/-- The outcome `(false, nil)` of the invocation that reads the closing `]`. -/
def exhausted : Pull := ⟨false, none, false, none⟩

/-- The consumer loop of `TestSliceIterator`, bounded to `k` invocations: the cursor is
invoked until it returns an error or reports no more elements; the outcomes are
collected in order, the last one included. -/
def Cursor.run : Nat → Cursor → List Pull
  | 0, _ => []
  | k + 1, c =>
    if c.call.1.err.isSome || !c.call.1.more then [c.call.1]
    else c.call.1 :: Cursor.run k c.call.2

/-- What the consumer loop collects from an array with elements `es`. -/
def yieldSpec (g : Dst) : Nat → List Value → List Pull
  | 0, _ => []
  | _ + 1, [] => [exhausted]
  | k + 1, v :: vs =>
    if (elemPull g v).err.isSome || !(elemPull g v).more then [elemPull g v]
    else elemPull g v :: yieldSpec g k vs

/-- The fields `fs2` are the fields `fs1` with further fields inserted, none of them
named `p`. -/
inductive SibIns (p : String) : List (String × Value) → List (String × Value) → Prop
  | nil : SibIns p [] []
  | keep (kv : String × Value) (fs1 fs2 : List (String × Value)) :
      SibIns p fs1 fs2 → SibIns p (kv :: fs1) (kv :: fs2)
  | ins (k : String) (v : Value) (fs1 fs2 : List (String × Value)) :
      k ≠ p → SibIns p fs1 fs2 → SibIns p fs1 ((k, v) :: fs2)

/-- The fields `fs2` are the fields `fs1` with further fields inserted before and after
the first field named `p`, none of them named `p`; the values inserted before that
field satisfy `ok`, and the value of that field may itself change by `R`. -/
inductive InsFields (p : String) (ok : Value → Prop) (R : Value → Value → Prop) :
    List (String × Value) → List (String × Value) → Prop
  | nil : InsFields p ok R [] []
  | keep (k : String) (v : Value) (fs1 fs2 : List (String × Value)) :
      k ≠ p → InsFields p ok R fs1 fs2 → InsFields p ok R ((k, v) :: fs1) ((k, v) :: fs2)
  | ins (k : String) (v : Value) (fs1 fs2 : List (String × Value)) :
      k ≠ p → ok v → InsFields p ok R fs1 fs2 → InsFields p ok R fs1 ((k, v) :: fs2)
  | target (v1 v2 : Value) (fs1 fs2 : List (String × Value)) :
      R v1 v2 → SibIns p fs1 fs2 → InsFields p ok R ((p, v1) :: fs1) ((p, v2) :: fs2)

/-- The document `d2` is the document `d1` with sibling fields inserted at the object
levels along `path`, at each level with names other than the segment searched there;
the values inserted before the field searched satisfy `ok`. -/
def PaddedBy (ok : Value → Prop) : List String → Value → Value → Prop
  | p :: ps, .obj fs1, .obj fs2 => InsFields p ok (PaddedBy ok ps) fs1 fs2
  | _, d1, d2 => d1 = d2

/-- Insertion of siblings of any well-formed shape, as the specification words it. -/
def Padded (path : List String) (d1 d2 : Value) : Prop :=
  PaddedBy (fun _ => True) path d1 d2

mutual
/-- Every number in the value fits a `float64`: `Decoder.Token` fails on none of its
numbers. -/
def Value.readable : Value → Bool
  | .huge _ => false
  | .arr es => readableElems es
  | .obj fs => readableFields fs
  | _ => true
/-- Every number in the elements fits a `float64`. -/
def readableElems : List Value → Bool
  | [] => true
  | v :: vs => v.readable && readableElems vs
/-- Every number in the values of the fields fits a `float64`. -/
def readableFields : List (String × Value) → Bool
  | [] => true
  | (_, v) :: fs => v.readable && readableFields fs
end

/-- The fields that stand before the first field named `p` (all of them when there is
none): the fields the scan for `p` passes over. -/
def fieldsBefore (p : String) : List (String × Value) → List (String × Value)
  | [] => []
  | (k, v) :: fs => if k = p then [] else (k, v) :: fieldsBefore p fs

/-- Every number in the sibling values that `trackPath` passes over on its way along
`path` fits a `float64`.  Nothing is asked of the value the path leads to, nor of
what follows it. -/
def skippedOk : List String → Value → Bool
  | [], _ => true
  | p :: ps, .obj fs =>
    readableFields (fieldsBefore p fs) &&
      (match lookup p fs with
        | some v => skippedOk ps v
        | none => true)
  | _ :: _, _ => true

/-- Insertion of siblings whose numbers, for those inserted before the field
searched, fit a `float64`. -/
def PaddedRead (path : List String) (d1 d2 : Value) : Prop :=
  PaddedBy (fun v => v.readable = true) path d1 d2

/-- The error of `expectDelim(dec, '[')` on the first lexeme of a value that is not an
array. -/
def notArrayError : Value → Error
  | .null => .unexpectedToken .lbrack .null
  | .bool b => .unexpectedToken .lbrack (.bool b)
  | .num n => .unexpectedToken .lbrack (.num n)
  | .str x => .unexpectedToken .lbrack (.str x)
  | .huge _ => .unmarshalType
  | .arr _ => .unexpectedToken .lbrack (.delim .lbrack)
  | .obj _ => .unexpectedToken .lbrack (.delim .lbrace)

/-- Whether `Decoder.Token` returns the lexeme as a token. -/
def Token.delivered : Token → Bool
  | .huge _ => false
  | .deep _ => false
  | _ => true

/-- `Decoder.Token` delivers every lexeme of the stream: none is a number outside the
`float64` range or a delimiter beyond the nesting limit. -/
def allDelivered : List Token → Bool
  | [] => true
  | t :: ts => t.delivered && allDelivered ts

/-- Whether a decoder with the nesting limit `lim` (`none` for a decoder without one)
opens a further level when `lvl` levels are open. -/
def opensAt (lim : Option Nat) (lvl : Nat) : Bool :=
  match lim with
  | none => true
  | some n => decide (lvl < n)

/-- The lexeme an opening delimiter is to a decoder with the nesting limit `lim` that
has `lvl` levels open. -/
def opening (lim : Option Nat) (lvl : Nat) (d : Delim) : Token :=
  if opensAt lim lvl then .delim d else .deep d

mutual
/-- The lexemes of a well-formed value standing at nesting level `lvl`, as a decoder
with the nesting limit `lim` reads them: the lexemes `tokens` gives, except that the
opening delimiters beyond the limit are `deep`. -/
def lexemes (lim : Option Nat) (lvl : Nat) : Value → List Token
  | .null => [.null]
  | .bool b => [.bool b]
  | .num n => [.num n]
  | .str s => [.str s]
  | .huge l => [.huge l]
  | .arr es => opening lim lvl .lbrack :: (elemLexemes lim (lvl + 1) es ++ [.delim .rbrack])
  | .obj fs => opening lim lvl .lbrace :: (fieldLexemes lim (lvl + 1) fs ++ [.delim .rbrace])
/-- The lexemes of the elements of an array, without the brackets. -/
def elemLexemes (lim : Option Nat) (lvl : Nat) : List Value → List Token
  | [] => []
  | v :: vs => lexemes lim lvl v ++ elemLexemes lim lvl vs
/-- The lexemes of the fields of an object, without the braces. -/
def fieldLexemes (lim : Option Nat) (lvl : Nat) : List (String × Value) → List Token
  | [] => []
  | (k, v) :: fs => .str k :: (lexemes lim lvl v ++ fieldLexemes lim lvl fs)
end

mutual
/-- The value, standing at nesting level `lvl`, is nested no deeper than a decoder with
the nesting limit `lim` reads: the decoder opens every level of it. -/
def Value.within (lim : Option Nat) (lvl : Nat) : Value → Bool
  | .arr es => opensAt lim lvl && withinElems lim (lvl + 1) es
  | .obj fs => opensAt lim lvl && withinFields lim (lvl + 1) fs
  | _ => true
/-- Every element is nested no deeper than the decoder reads. -/
def withinElems (lim : Option Nat) (lvl : Nat) : List Value → Bool
  | [] => true
  | v :: vs => v.within lim lvl && withinElems lim lvl vs
/-- The value of every field is nested no deeper than the decoder reads. -/
def withinFields (lim : Option Nat) (lvl : Nat) : List (String × Value) → Bool
  | [] => true
  | (_, v) :: fs => v.within lim lvl && withinFields lim lvl fs
end

/-- The empty array inside `k` further arrays: a value nested `k + 1` levels deep. -/
def nested : Nat → Value
  | 0 => .arr []
  | k + 1 => .arr [nested k]

/-- What a token adds to the depth counter of the skipping loop, in the words of the
specification: `+1` on `{` and `[`, `-1` on `}` and `]`, nothing otherwise. -/
def delimDelta : Token → Int
  | .delim .lbrace => 1
  | .delim .lbrack => 1
  | .delim .rbrace => -1
  | .delim .rbrack => -1
  | _ => 0

/-- The depth counter of the specification after the tokens `pre`, starting at 1. -/
def depthAfter (pre : List Token) : Int :=
  1 + (pre.map delimDelta).sum

/-- Number of rounds of the loop `for tokenCount > 0` that `readLoop` makes, the round
whose read fails included. -/
def readLoopIters : Nat → List Token → Nat
  | 0, _ => 0
  | _ + 1, [] => 1
  | _ + 1, .huge _ :: _ => 1
  | _ + 1, .deep _ :: _ => 1
  | c + 1, .delim .lbrace :: ts => 1 + readLoopIters (c + 2) ts
  | c + 1, .delim .lbrack :: ts => 1 + readLoopIters (c + 2) ts
  | c + 1, .delim .rbrace :: ts => 1 + readLoopIters c ts
  | c + 1, .delim .rbrack :: ts => 1 + readLoopIters c ts
  | c + 1, _ :: ts => 1 + readLoopIters (c + 1) ts

/-- Number of loop rounds of one call of `readArrayOrObject`. -/
def readArrayOrObjectIters (dec : Decoder) : Nat :=
  readLoopIters 1 dec.toks

/-- Number of loop rounds `scanFields` makes: the rounds of the inner `for` of
`trackPath` plus the rounds of the calls of `readArrayOrObject` made from it. -/
def scanFieldsIters (field : String) (fail : Error) : List Token → Nat
  | [] => 1
  | .huge _ :: _ => 1
  | .deep _ :: _ => 1
  | .delim .rbrace :: _ => 1
  | .str got :: ts =>
    if got = field then 1
    else
      match ts with
      | [] => 1
      | .huge _ :: _ => 1
      | .deep _ :: _ => 1
      | .delim _ :: ts2 =>
        match h : readArrayOrObject ⟨ts2, fail⟩ with
        | (some _, _) => 1 + readArrayOrObjectIters ⟨ts2, fail⟩
        | (none, dec3) =>
          have : dec3.toks.length ≤ ts2.length := by
            have hl := readLoop_length_le fail 1 ts2
            have h2 := congrArg (fun r => r.2.toks) h
            simp only [readArrayOrObject] at h2
            rw [h2] at hl
            exact hl
          1 + readArrayOrObjectIters ⟨ts2, fail⟩ + scanFieldsIters field fail dec3.toks
      | _ :: ts2 => 1 + scanFieldsIters field fail ts2
  | _ :: _ => 1
termination_by ts => ts.length
decreasing_by all_goals simp_wf; all_goals omega

/-- Number of loop rounds `trackLoop` makes: the rounds of the loop over the segments
plus all rounds made inside them. -/
def trackLoopIters : List String → Decoder → Nat
  | [], _ => 0
  | field :: rest, dec =>
    match expectDelim dec .lbrace with
    | (some _, _) => 1
    | (none, dec1) =>
      match scanFields field dec1.fail dec1.toks with
      | .ret _ _ => 1 + scanFieldsIters field dec1.fail dec1.toks
      | .closed dec2 => 1 + scanFieldsIters field dec1.fail dec1.toks + trackLoopIters rest dec2
      | .found dec2 => 1 + scanFieldsIters field dec1.fail dec1.toks + trackLoopIters rest dec2

/-- Number of loop rounds of one call of `trackPath`. -/
def trackPathIters (dec : Decoder) (path : List String) : Nat :=
  if path.length = 0 then 0 else trackLoopIters path dec

/-- The tokens the decoder holds when the scanning loop is left. -/
def Scan.left : Scan → Nat
  | .ret _ dec => dec.toks.length
  | .closed dec => dec.toks.length
  | .found dec => dec.toks.length

/-- One for a scan left by `return err`, nothing otherwise: the round that returns may
have read no token. -/
def Scan.slack : Scan → Nat
  | .ret _ _ => 1
  | _ => 0

/-! ## Theorems -/

theorem tokens_arr_append (es : List Value) (rest : List Token) :
    tokens (.arr es) ++ rest = .delim .lbrack :: (elemTokens es ++ .delim .rbrack :: rest) := by
  simp [tokens]

theorem tokens_obj_append (fs : List (String × Value)) (rest : List Token) :
    tokens (.obj fs) ++ rest = .delim .lbrace :: (fieldTokens fs ++ .delim .rbrace :: rest) := by
  simp [tokens]

theorem elemTokens_cons_append (v : Value) (vs : List Value) (rest : List Token) :
    elemTokens (v :: vs) ++ rest = tokens v ++ (elemTokens vs ++ rest) := by
  simp [elemTokens]

theorem fieldTokens_cons_append (k : String) (v : Value) (fs : List (String × Value))
    (rest : List Token) :
    fieldTokens ((k, v) :: fs) ++ rest = .str k :: (tokens v ++ (fieldTokens fs ++ rest)) := by
  simp [fieldTokens]

theorem readLoop_lbrace (fail : Error) (c : Nat) (ts : List Token) :
    readLoop fail (c + 1) (.delim .lbrace :: ts) = readLoop fail (c + 2) ts := rfl

theorem readLoop_lbrack (fail : Error) (c : Nat) (ts : List Token) :
    readLoop fail (c + 1) (.delim .lbrack :: ts) = readLoop fail (c + 2) ts := rfl

theorem readLoop_rbrace (fail : Error) (c : Nat) (ts : List Token) :
    readLoop fail (c + 1) (.delim .rbrace :: ts) = readLoop fail c ts := rfl

theorem readLoop_rbrack (fail : Error) (c : Nat) (ts : List Token) :
    readLoop fail (c + 1) (.delim .rbrack :: ts) = readLoop fail c ts := rfl

theorem readLoop_str (fail : Error) (c : Nat) (s : String) (ts : List Token) :
    readLoop fail (c + 1) (.str s :: ts) = readLoop fail (c + 1) ts := rfl

theorem readLoop_huge (fail : Error) (c : Nat) (l : String) (ts : List Token) :
    readLoop fail (c + 1) (.huge l :: ts) = (some .unmarshalType, ts) := rfl

theorem readableElems_cons (v : Value) (vs : List Value) :
    readableElems (v :: vs) = (v.readable && readableElems vs) := by
  simp [readableElems]

theorem readableFields_cons (k : String) (v : Value) (fs : List (String × Value)) :
    readableFields ((k, v) :: fs) = (v.readable && readableFields fs) := by
  simp [readableFields]

mutual
/-- Inside the skipping loop, the lexemes of a whole value whose numbers fit leave the
counter as it was. -/
theorem readLoop_tokens (fail : Error) (v : Value) (hv : v.readable = true) (c : Nat)
    (rest : List Token) :
    readLoop fail (c + 1) (tokens v ++ rest) = readLoop fail (c + 1) rest :=
  match v, hv with
  | .null, _ => rfl
  | .bool _, _ => rfl
  | .num _, _ => rfl
  | .str _, _ => rfl
  | .huge _, hv => by simp [Value.readable] at hv
  | .arr es, hv => by
    rw [tokens_arr_append, readLoop_lbrack,
      readLoop_elemTokens fail es (by simpa [Value.readable] using hv) (c + 1)
        (.delim .rbrack :: rest),
      readLoop_rbrack]
  | .obj fs, hv => by
    rw [tokens_obj_append, readLoop_lbrace,
      readLoop_fieldTokens fail fs (by simpa [Value.readable] using hv) (c + 1)
        (.delim .rbrace :: rest),
      readLoop_rbrace]
/-- Inside the skipping loop, the lexemes of a run of array elements leave the counter
as it was. -/
theorem readLoop_elemTokens (fail : Error) (es : List Value)
    (hes : readableElems es = true) (c : Nat) (rest : List Token) :
    readLoop fail (c + 1) (elemTokens es ++ rest) = readLoop fail (c + 1) rest :=
  match es, hes with
  | [], _ => rfl
  | v :: vs, hes => by
    rw [readableElems_cons, Bool.and_eq_true] at hes
    rw [elemTokens_cons_append, readLoop_tokens fail v hes.1 c,
      readLoop_elemTokens fail vs hes.2 c]
/-- Inside the skipping loop, the lexemes of a run of object fields leave the counter
as it was. -/
theorem readLoop_fieldTokens (fail : Error) (fs : List (String × Value))
    (hfs : readableFields fs = true) (c : Nat) (rest : List Token) :
    readLoop fail (c + 1) (fieldTokens fs ++ rest) = readLoop fail (c + 1) rest :=
  match fs, hfs with
  | [], _ => rfl
  | (k, v) :: fs, hfs => by
    rw [readableFields_cons, Bool.and_eq_true] at hfs
    rw [fieldTokens_cons_append, readLoop_str, readLoop_tokens fail v hfs.1 c,
      readLoop_fieldTokens fail fs hfs.2 c]
end

mutual
/-- Inside the skipping loop, a value with a number that does not fit makes the loop
return the decoder's `UnmarshalTypeError`. -/
theorem readLoop_tokens_fails (fail : Error) (v : Value) (hv : v.readable = false)
    (c : Nat) (rest : List Token) :
    (readLoop fail (c + 1) (tokens v ++ rest)).1 = some .unmarshalType :=
  match v, hv with
  | .null, hv => by simp [Value.readable] at hv
  | .bool _, hv => by simp [Value.readable] at hv
  | .num _, hv => by simp [Value.readable] at hv
  | .str _, hv => by simp [Value.readable] at hv
  | .huge _, _ => rfl
  | .arr es, hv => by
    rw [tokens_arr_append, readLoop_lbrack]
    exact readLoop_elemTokens_fails fail es (by simpa [Value.readable] using hv) (c + 1) _
  | .obj fs, hv => by
    rw [tokens_obj_append, readLoop_lbrace]
    exact readLoop_fieldTokens_fails fail fs (by simpa [Value.readable] using hv) (c + 1) _
/-- Inside the skipping loop, elements with a number that does not fit make the loop
return the decoder's `UnmarshalTypeError`. -/
theorem readLoop_elemTokens_fails (fail : Error) (es : List Value)
    (hes : readableElems es = false) (c : Nat) (rest : List Token) :
    (readLoop fail (c + 1) (elemTokens es ++ rest)).1 = some .unmarshalType :=
  match es, hes with
  | [], hes => by simp [readableElems] at hes
  | v :: vs, hes => by
    rw [elemTokens_cons_append]
    cases hv : v.readable with
    | false => exact readLoop_tokens_fails fail v hv c _
    | true =>
      rw [readableElems_cons, hv, Bool.true_and] at hes
      rw [readLoop_tokens fail v hv c]
      exact readLoop_elemTokens_fails fail vs hes c rest
/-- Inside the skipping loop, fields with a number that does not fit make the loop
return the decoder's `UnmarshalTypeError`. -/
theorem readLoop_fieldTokens_fails (fail : Error) (fs : List (String × Value))
    (hfs : readableFields fs = false) (c : Nat) (rest : List Token) :
    (readLoop fail (c + 1) (fieldTokens fs ++ rest)).1 = some .unmarshalType :=
  match fs, hfs with
  | [], hfs => by simp [readableFields] at hfs
  | (k, v) :: fs, hfs => by
    rw [fieldTokens_cons_append, readLoop_str]
    cases hv : v.readable with
    | false => exact readLoop_tokens_fails fail v hv c _
    | true =>
      rw [readableFields_cons, hv, Bool.true_and] at hfs
      rw [readLoop_tokens fail v hv c]
      exact readLoop_fieldTokens_fails fail fs hfs c rest
end

/-- Skipping from just after the opening delimiter of a container whose numbers fit
ends just after its closing delimiter. -/
theorem readArrayOrObject_tail (fail : Error) (v : Value) (hv : v.isContainer = true)
    (hr : v.readable = true) (rest : List Token) :
    readArrayOrObject ⟨(tokens v).tail ++ rest, fail⟩ = (none, ⟨rest, fail⟩) := by
  cases v with
  | arr es =>
    have h := readLoop_elemTokens fail es (by simpa [Value.readable] using hr) 0
      (.delim .rbrack :: rest)
    simp only [readArrayOrObject, tokens, List.tail_cons, List.append_assoc,
      List.singleton_append]
    rw [h, readLoop_rbrack]
    simp [readLoop]
  | obj fs =>
    have h := readLoop_fieldTokens fail fs (by simpa [Value.readable] using hr) 0
      (.delim .rbrace :: rest)
    simp only [readArrayOrObject, tokens, List.tail_cons, List.append_assoc,
      List.singleton_append]
    rw [h, readLoop_rbrace]
    simp [readLoop]
  | null => simp [Value.isContainer] at hv
  | bool _ => simp [Value.isContainer] at hv
  | num _ => simp [Value.isContainer] at hv
  | str _ => simp [Value.isContainer] at hv
  | huge _ => simp [Value.isContainer] at hv

/-- Skipping a container with a number that does not fit returns the decoder's
`UnmarshalTypeError`. -/
theorem readArrayOrObject_tail_fails (fail : Error) (v : Value)
    (hv : v.isContainer = true) (hr : v.readable = false) (rest : List Token) :
    (readArrayOrObject ⟨(tokens v).tail ++ rest, fail⟩).1 = some .unmarshalType := by
  cases v with
  | arr es =>
    have h := readLoop_elemTokens_fails fail es (by simpa [Value.readable] using hr) 0
      (.delim .rbrack :: rest)
    simp only [readArrayOrObject, tokens, List.tail_cons, List.append_assoc,
      List.singleton_append]
    exact h
  | obj fs =>
    have h := readLoop_fieldTokens_fails fail fs (by simpa [Value.readable] using hr) 0
      (.delim .rbrace :: rest)
    simp only [readArrayOrObject, tokens, List.tail_cons, List.append_assoc,
      List.singleton_append]
    exact h
  | null => simp [Value.isContainer] at hv
  | bool _ => simp [Value.isContainer] at hv
  | num _ => simp [Value.isContainer] at hv
  | str _ => simp [Value.isContainer] at hv
  | huge _ => simp [Value.isContainer] at hv

theorem scanFields_rbrace (field : String) (fail : Error) (ts : List Token) :
    scanFields field fail (.delim .rbrace :: ts) = .closed ⟨ts, fail⟩ := by
  rw [scanFields.eq_def]

theorem scanFields_hit (field : String) (fail : Error) (ts : List Token) :
    scanFields field fail (.str field :: ts) = .found ⟨ts, fail⟩ := by
  rw [scanFields.eq_def]; simp

/-- The round of the scanning loop that meets another field whose value opens with a
delimiter: the value is skipped with `readArrayOrObject`. -/
theorem scanFields_delim (field : String) (fail : Error) (got : String) (d : Delim)
    (ts2 : List Token) (hk : got ≠ field) :
    scanFields field fail (.str got :: .delim d :: ts2) =
      match readArrayOrObject ⟨ts2, fail⟩ with
      | (some err, dec3) => .ret err dec3
      | (none, dec3) => scanFields field fail dec3.toks := by
  rw [scanFields.eq_def]
  simp only [hk, if_false]
  split <;> rename_i heq <;> simp [heq]

/-- A field whose name is not the one searched, and whose numbers fit, is passed over
together with its value. -/
theorem scanFields_skip (field : String) (fail : Error) (k : String) (v : Value)
    (hk : k ≠ field) (hr : v.readable = true) (rest : List Token) :
    scanFields field fail (.str k :: (tokens v ++ rest)) = scanFields field fail rest := by
  cases v with
  | null => rw [scanFields.eq_def]; simp [hk, tokens]
  | bool _ => rw [scanFields.eq_def]; simp [hk, tokens]
  | num _ => rw [scanFields.eq_def]; simp [hk, tokens]
  | str _ => rw [scanFields.eq_def]; simp [hk, tokens]
  | huge _ => simp [Value.readable] at hr
  | arr es =>
    have h := readArrayOrObject_tail fail (.arr es) rfl hr rest
    simp only [tokens, List.tail_cons] at h
    simp only [tokens, List.cons_append]
    rw [scanFields_delim field fail k _ _ hk, h]
  | obj fs =>
    have h := readArrayOrObject_tail fail (.obj fs) rfl hr rest
    simp only [tokens, List.tail_cons] at h
    simp only [tokens, List.cons_append]
    rw [scanFields_delim field fail k _ _ hk, h]

/-- A field whose name is not the one searched and whose value has a number that does
not fit makes the scan return the decoder's `UnmarshalTypeError`. -/
theorem scanFields_skip_fails (field : String) (fail : Error) (k : String) (v : Value)
    (hk : k ≠ field) (hr : v.readable = false) (rest : List Token) :
    ∃ dec2, scanFields field fail (.str k :: (tokens v ++ rest)) =
      .ret .unmarshalType dec2 := by
  cases v with
  | null => simp [Value.readable] at hr
  | bool _ => simp [Value.readable] at hr
  | num _ => simp [Value.readable] at hr
  | str _ => simp [Value.readable] at hr
  | huge l => exact ⟨⟨rest, fail⟩, by rw [scanFields.eq_def]; simp [hk, tokens]⟩
  | arr es =>
    have h := readArrayOrObject_tail_fails fail (.arr es) rfl hr rest
    simp only [tokens, List.tail_cons] at h
    simp only [tokens, List.cons_append]
    rw [scanFields_delim field fail k _ _ hk]
    rcases hro : readArrayOrObject ⟨elemTokens es ++ [.delim .rbrack] ++ rest, fail⟩
      with ⟨e, dec3⟩
    rw [hro] at h
    simp only [] at h
    subst h
    refine ⟨dec3, ?_⟩
    rw [hro]
  | obj fs =>
    have h := readArrayOrObject_tail_fails fail (.obj fs) rfl hr rest
    simp only [tokens, List.tail_cons] at h
    simp only [tokens, List.cons_append]
    rw [scanFields_delim field fail k _ _ hk]
    rcases hro : readArrayOrObject ⟨fieldTokens fs ++ [.delim .rbrace] ++ rest, fail⟩
      with ⟨e, dec3⟩
    rw [hro] at h
    simp only [] at h
    subst h
    refine ⟨dec3, ?_⟩
    rw [hro]

theorem fieldsBefore_cons_ne (p k : String) (v : Value) (fs : List (String × Value))
    (hk : k ≠ p) : fieldsBefore p ((k, v) :: fs) = (k, v) :: fieldsBefore p fs := by
  simp [fieldsBefore, hk]

theorem scanFields_lookup_some (fail : Error) (p : String) (fs : List (String × Value))
    (v : Value) (h : lookup p fs = some v)
    (hr : readableFields (fieldsBefore p fs) = true) (rest : List Token) :
    scanFields p fail (fieldTokens fs ++ rest) =
      .found ⟨tokens v ++ (fieldTokens (fieldsAfter p fs) ++ rest), fail⟩ := by
  induction fs with
  | nil => simp [lookup] at h
  | cons kv fs ih =>
    obtain ⟨k, w⟩ := kv
    by_cases hk : k = p
    · subst hk
      simp only [lookup, if_true, Option.some.injEq] at h
      subst h
      rw [fieldTokens_cons_append, scanFields_hit]
      simp [fieldsAfter]
    · simp only [lookup, hk, if_false] at h
      rw [fieldsBefore_cons_ne p k w fs hk, readableFields_cons, Bool.and_eq_true] at hr
      rw [fieldTokens_cons_append, scanFields_skip p fail k w hk hr.1, ih h hr.2]
      simp [fieldsAfter, hk]

theorem scanFields_lookup_none (fail : Error) (p : String) (fs : List (String × Value))
    (h : lookup p fs = none) (hr : readableFields (fieldsBefore p fs) = true)
    (rest : List Token) :
    scanFields p fail (fieldTokens fs ++ .delim .rbrace :: rest) = .closed ⟨rest, fail⟩ := by
  induction fs with
  | nil => simp only [fieldTokens, List.nil_append]; rw [scanFields_rbrace]
  | cons kv fs ih =>
    obtain ⟨k, w⟩ := kv
    by_cases hk : k = p
    · simp [lookup, hk] at h
    · simp only [lookup, hk, if_false] at h
      rw [fieldsBefore_cons_ne p k w fs hk, readableFields_cons, Bool.and_eq_true] at hr
      rw [fieldTokens_cons_append, scanFields_skip p fail k w hk hr.1, ih h hr.2]

/-- When a field passed over by the scan has a number that does not fit, the scan
returns the decoder's `UnmarshalTypeError`. -/
theorem scanFields_before_fails (fail : Error) (p : String) (fs : List (String × Value))
    (hr : readableFields (fieldsBefore p fs) = false) (rest : List Token) :
    ∃ dec2, scanFields p fail (fieldTokens fs ++ rest) = .ret .unmarshalType dec2 := by
  induction fs with
  | nil => simp [fieldsBefore, readableFields] at hr
  | cons kv fs ih =>
    obtain ⟨k, w⟩ := kv
    by_cases hk : k = p
    · simp [fieldsBefore, hk, readableFields] at hr
    · rw [fieldsBefore_cons_ne p k w fs hk, readableFields_cons] at hr
      rw [fieldTokens_cons_append]
      cases hw : w.readable with
      | false => exact scanFields_skip_fails p fail k w hk hw _
      | true =>
        rw [hw, Bool.true_and] at hr
        rw [scanFields_skip p fail k w hk hw]
        exact ih hr

theorem expectDelim_hit (d : Delim) (ts : List Token) (fail : Error) :
    expectDelim ⟨.delim d :: ts, fail⟩ d = (none, ⟨ts, fail⟩) := by
  simp [expectDelim, Decoder.Token]

theorem expectDelim_miss (d : Delim) (t : Token) (ts : List Token) (fail : Error)
    (h : t ≠ .delim d) (hh : t.delivered = true) :
    expectDelim ⟨t :: ts, fail⟩ d = (some (.unexpectedToken d t), ⟨ts, fail⟩) := by
  rcases t with (d2 | s | n | b | _ | l | d2)
  · simp [expectDelim, Decoder.Token, h]
  · simp [expectDelim, Decoder.Token]
  · simp [expectDelim, Decoder.Token]
  · simp [expectDelim, Decoder.Token]
  · simp [expectDelim, Decoder.Token]
  · simp [Token.delivered] at hh
  · simp [Token.delivered] at hh

theorem expectDelim_huge (d : Delim) (l : String) (ts : List Token) (fail : Error) :
    expectDelim ⟨.huge l :: ts, fail⟩ d = (some .unmarshalType, ⟨ts, fail⟩) := by
  simp [expectDelim, Decoder.Token]

theorem expectDelim_deep (d d2 : Delim) (ts : List Token) (fail : Error) :
    expectDelim ⟨.deep d2 :: ts, fail⟩ d = (some .maxDepth, ⟨ts, fail⟩) := by
  simp [expectDelim, Decoder.Token]

/-- A lexeme that is not delivered is a number out of range or a delimiter beyond the
nesting limit. -/
theorem Token.not_delivered (t : Token) (h : t.delivered = false) :
    (∃ l, t = .huge l) ∨ ∃ d, t = .deep d := by
  rcases t with (d | s | n | b | _ | l | d)
  · simp [Token.delivered] at h
  · simp [Token.delivered] at h
  · simp [Token.delivered] at h
  · simp [Token.delivered] at h
  · simp [Token.delivered] at h
  · exact Or.inl ⟨l, rfl⟩
  · exact Or.inr ⟨d, rfl⟩

theorem expectDelim_nil (d : Delim) (fail : Error) :
    expectDelim ⟨[], fail⟩ d = (some fail, ⟨[], fail⟩) := by
  simp [expectDelim, Decoder.Token]

/-- A token other than the expected delimiter, read or not, makes `expectDelim` fail
and leaves the decoder after it. -/
theorem expectDelim_other (d : Delim) (t : Token) (ts : List Token) (fail : Error)
    (h : t ≠ .delim d) :
    ∃ e, expectDelim ⟨t :: ts, fail⟩ d = (some e, ⟨ts, fail⟩) := by
  cases hh : t.delivered with
  | true => exact ⟨_, expectDelim_miss d t ts fail h hh⟩
  | false =>
    rcases Token.not_delivered t hh with ⟨l, rfl⟩ | ⟨d2, rfl⟩
    · exact ⟨_, expectDelim_huge d l ts fail⟩
    · exact ⟨_, expectDelim_deep d d2 ts fail⟩

/-- One round of the segment loop on an object that has the field. -/
theorem trackLoop_step_found (len i : Nat) (p : String) (ps : List String) (fc : Nat)
    (fs : List (String × Value)) (v : Value) (h : lookup p fs = some v)
    (hr : readableFields (fieldsBefore p fs) = true)
    (tail : List Token) (fail : Error) :
    trackLoop len i (p :: ps) fc ⟨tokens (.obj fs) ++ tail, fail⟩ =
      trackLoop len (i + 1) ps (i + 1)
        ⟨tokens v ++ (fieldTokens (fieldsAfter p fs) ++ .delim .rbrace :: tail), fail⟩ := by
  rw [tokens_obj_append, trackLoop, expectDelim_hit]
  simp only []
  rw [scanFields_lookup_some fail p fs v h hr]

/-- One round of the segment loop on an object that lacks the field. -/
theorem trackLoop_step_missing (len i : Nat) (p : String) (ps : List String) (fc : Nat)
    (fs : List (String × Value)) (h : lookup p fs = none)
    (hr : readableFields (fieldsBefore p fs) = true)
    (tail : List Token) (fail : Error) :
    trackLoop len i (p :: ps) fc ⟨tokens (.obj fs) ++ tail, fail⟩ =
      trackLoop len (i + 1) ps fc ⟨tail, fail⟩ := by
  rw [tokens_obj_append, trackLoop, expectDelim_hit]
  simp only []
  rw [scanFields_lookup_none fail p fs h hr]

/-- One round of the segment loop on an object in which a field passed over has a
number that does not fit: `trackPath` returns the decoder's error. -/
theorem trackLoop_step_fails (len i : Nat) (p : String) (ps : List String) (fc : Nat)
    (fs : List (String × Value)) (hr : readableFields (fieldsBefore p fs) = false)
    (tail : List Token) (fail : Error) :
    (trackLoop len i (p :: ps) fc ⟨tokens (.obj fs) ++ tail, fail⟩).1 =
      some .unmarshalType := by
  obtain ⟨dec2, h⟩ := scanFields_before_fails fail p fs hr (.delim .rbrace :: tail)
  rw [tokens_obj_append, trackLoop, expectDelim_hit]
  simp only []
  rw [h]

theorem finish_lt (len fc : Nat) (h : fc < len) : finish len fc = some ErrNotFound := by
  simp [finish, Nat.ne_of_lt h]

/-- With fewer segments matched than the path has and no `{` ahead, the segment loop
ends in `ErrNotFound`. -/
theorem trackLoop_stuck (len i : Nat) (ps : List String) (fc : Nat) (ts : List Token)
    (fail : Error) (hts : startsObject ts = false) (hfc : fc < len) :
    (trackLoop len i ps fc ⟨ts, fail⟩).1 = some ErrNotFound := by
  cases ps with
  | nil => simp [trackLoop, finish_lt len fc hfc]
  | cons p ps =>
    cases ts with
    | nil => simp [trackLoop, expectDelim_nil, finish_lt len fc hfc]
    | cons t ts =>
      have ht : t ≠ .delim .lbrace := by
        intro h; subst h; simp [startsObject] at hts
      obtain ⟨e, he⟩ := expectDelim_other .lbrace t ts fail ht
      simp [trackLoop, he, finish_lt len fc hfc]

theorem startsObject_fields (fs : List (String × Value)) (tail : List Token) :
    startsObject (fieldTokens fs ++ .delim .rbrace :: tail) = false := by
  cases fs with
  | nil => rfl
  | cons kv fs => obtain ⟨k, v⟩ := kv; rfl

theorem startsObject_tokens (v : Value) (tail : List Token) (h : ∀ fs, v ≠ .obj fs) :
    startsObject (tokens v ++ tail) = false := by
  cases v with
  | obj fs => exact absurd rfl (h fs)
  | null => rfl
  | bool _ => rfl
  | num _ => rfl
  | str _ => rfl
  | huge _ => rfl
  | arr _ => rfl

theorem skippedOk_obj (p : String) (ps : List String) (fs : List (String × Value)) :
    skippedOk (p :: ps) (.obj fs) =
      (readableFields (fieldsBefore p fs) &&
        (match lookup p fs with
          | some v => skippedOk ps v
          | none => true)) := by
  rw [skippedOk]

/-- The segment loop along a path that resolves, the siblings passed over being
readable: it ends after the last segment, just before the value the path leads to. -/
theorem trackLoop_found (len : Nat) (fail : Error) (ps : List String) :
    ∀ (p : String) (d : Value) (i fc : Nat) (tail : List Token) (v : Value),
      descend (p :: ps) d = .found v → skippedOk (p :: ps) d = true →
      trackLoop len i (p :: ps) fc ⟨tokens d ++ tail, fail⟩ =
        (finish len (i + ps.length + 1), ⟨tokens v ++ restAfter (p :: ps) d tail, fail⟩) := by
  induction ps with
  | nil =>
    intro p d i fc tail v h hs
    cases d with
    | obj fs =>
      cases hl : lookup p fs with
      | none => simp [descend, hl] at h
      | some w =>
        simp only [descend, hl, Descent.found.injEq] at h
        subst h
        rw [skippedOk_obj, Bool.and_eq_true] at hs
        rw [trackLoop_step_found len i p [] fc fs w hl hs.1]
        simp [trackLoop, restAfter, hl]
    | null => simp [descend] at h
    | bool _ => simp [descend] at h
    | num _ => simp [descend] at h
    | str _ => simp [descend] at h
    | huge _ => simp [descend] at h
    | arr _ => simp [descend] at h
  | cons q qs ih =>
    intro p d i fc tail v h hs
    cases d with
    | obj fs =>
      cases hl : lookup p fs with
      | none => simp [descend, hl] at h
      | some w =>
        have h2 : descend (q :: qs) w = .found v := by
          rw [descend, hl] at h; exact h
        rw [skippedOk_obj, Bool.and_eq_true, hl] at hs
        rw [trackLoop_step_found len i p (q :: qs) fc fs w hl hs.1,
          ih q w (i + 1) (i + 1) _ v h2 hs.2]
        simp only [restAfter, hl, List.length_cons]
        congr 2
        omega
    | null => simp [descend] at h
    | bool _ => simp [descend] at h
    | num _ => simp [descend] at h
    | str _ => simp [descend] at h
    | huge _ => simp [descend] at h
    | arr _ => simp [descend] at h

/-- The segment loop along a path that does not resolve, the siblings passed over being
readable, in a stream where no `{` follows the document: it ends in `ErrNotFound`. -/
theorem trackLoop_lost (len : Nat) (fail : Error) (ps : List String) :
    ∀ (p : String) (d : Value) (i fc : Nat) (tail : List Token),
      (∀ v, descend (p :: ps) d ≠ .found v) → skippedOk (p :: ps) d = true →
      fc ≤ i → i + ps.length + 1 ≤ len →
      startsObject tail = false →
      (trackLoop len i (p :: ps) fc ⟨tokens d ++ tail, fail⟩).1 = some ErrNotFound := by
  induction ps with
  | nil =>
    intro p d i fc tail h hs hfc hlen htail
    cases d with
    | obj fs =>
      rw [skippedOk_obj, Bool.and_eq_true] at hs
      cases hl : lookup p fs with
      | none =>
        rw [trackLoop_step_missing len i p [] fc fs hl hs.1]
        exact trackLoop_stuck len _ _ fc tail fail htail (by simp at hlen; omega)
      | some w => exact absurd (by simp [descend, hl]) (h w)
    | null => exact trackLoop_stuck len _ _ fc _ fail rfl (by simp at hlen; omega)
    | bool _ => exact trackLoop_stuck len _ _ fc _ fail rfl (by simp at hlen; omega)
    | num _ => exact trackLoop_stuck len _ _ fc _ fail rfl (by simp at hlen; omega)
    | str _ => exact trackLoop_stuck len _ _ fc _ fail rfl (by simp at hlen; omega)
    | huge _ => exact trackLoop_stuck len _ _ fc _ fail rfl (by simp at hlen; omega)
    | arr _ => exact trackLoop_stuck len _ _ fc _ fail rfl (by simp at hlen; omega)
  | cons q qs ih =>
    intro p d i fc tail h hs hfc hlen htail
    simp only [List.length_cons] at hlen
    cases d with
    | obj fs =>
      rw [skippedOk_obj, Bool.and_eq_true] at hs
      cases hl : lookup p fs with
      | none =>
        rw [trackLoop_step_missing len i p _ fc fs hl hs.1]
        exact trackLoop_stuck len _ _ fc tail fail htail (by omega)
      | some w =>
        rw [trackLoop_step_found len i p (q :: qs) fc fs w hl hs.1]
        rw [hl] at hs
        apply ih q w (i + 1) (i + 1) _ _ hs.2 (le_refl _) (by omega)
          (startsObject_fields _ _)
        intro v hv
        apply h v
        rw [descend, hl]; exact hv
    | null => exact trackLoop_stuck len _ _ fc _ fail rfl (by omega)
    | bool _ => exact trackLoop_stuck len _ _ fc _ fail rfl (by omega)
    | num _ => exact trackLoop_stuck len _ _ fc _ fail rfl (by omega)
    | str _ => exact trackLoop_stuck len _ _ fc _ fail rfl (by omega)
    | huge _ => exact trackLoop_stuck len _ _ fc _ fail rfl (by omega)
    | arr _ => exact trackLoop_stuck len _ _ fc _ fail rfl (by omega)

/-- The segment loop on a document in which a sibling passed over has a number that
does not fit: it returns the decoder's `UnmarshalTypeError`. -/
theorem trackLoop_fails (len : Nat) (fail : Error) (ps : List String) :
    ∀ (p : String) (d : Value) (i fc : Nat) (tail : List Token),
      skippedOk (p :: ps) d = false →
      (trackLoop len i (p :: ps) fc ⟨tokens d ++ tail, fail⟩).1 = some .unmarshalType := by
  induction ps with
  | nil =>
    intro p d i fc tail hs
    cases d with
    | obj fs =>
      rw [skippedOk_obj] at hs
      cases hb : readableFields (fieldsBefore p fs) with
      | false => exact trackLoop_step_fails len i p [] fc fs hb tail fail
      | true =>
        rw [hb, Bool.true_and] at hs
        cases hl : lookup p fs with
        | none => rw [hl] at hs; simp at hs
        | some w => rw [hl] at hs; simp [skippedOk] at hs
    | null => simp [skippedOk] at hs
    | bool _ => simp [skippedOk] at hs
    | num _ => simp [skippedOk] at hs
    | str _ => simp [skippedOk] at hs
    | huge _ => simp [skippedOk] at hs
    | arr _ => simp [skippedOk] at hs
  | cons q qs ih =>
    intro p d i fc tail hs
    cases d with
    | obj fs =>
      rw [skippedOk_obj] at hs
      cases hb : readableFields (fieldsBefore p fs) with
      | false => exact trackLoop_step_fails len i p _ fc fs hb tail fail
      | true =>
        rw [hb, Bool.true_and] at hs
        cases hl : lookup p fs with
        | none => rw [hl] at hs; simp at hs
        | some w =>
          rw [hl] at hs
          rw [trackLoop_step_found len i p (q :: qs) fc fs w hl hb]
          exact ih q w (i + 1) (i + 1) _ hs
    | null => simp [skippedOk] at hs
    | bool _ => simp [skippedOk] at hs
    | num _ => simp [skippedOk] at hs
    | str _ => simp [skippedOk] at hs
    | huge _ => simp [skippedOk] at hs
    | arr _ => simp [skippedOk] at hs

/-- A value's lexemes start with one that is not a closing delimiter. -/
theorem tokens_head (v : Value) :
    ∃ t ts, tokens v = t :: ts ∧ t ≠ .delim .rbrack ∧ t ≠ .delim .rbrace := by
  cases v <;> simp [tokens]

/-- The round of `parseElems` that meets a token other than `]`. -/
theorem parseElems_cons (fail : Error) (n : Nat) (t : Token) (ts : List Token)
    (ht : t ≠ .delim .rbrack) :
    parseElems fail (n + 1) (t :: ts) =
      match parseValue fail n (t :: ts) with
      | .error e => .error e
      | .ok (v, rest) =>
        match parseElems fail n rest with
        | .ok (vs, rest2) => .ok (v :: vs, rest2)
        | .error e => .error e := by
  rw [parseElems]
  intro ts2 h
  simp only [List.cons.injEq] at h
  exact ht h.1

mutual
/-- Reading back the lexemes of a value gives the value and leaves what follows. -/
theorem parseValue_tokens (fail : Error) (v : Value) (n : Nat) (rest : List Token)
    (hn : (tokens v).length ≤ n) :
    parseValue fail n (tokens v ++ rest) = .ok (v, rest) :=
  match v, n, hn with
  | .null, n + 1, _ => by simp [tokens, parseValue]
  | .bool _, n + 1, _ => by simp [tokens, parseValue]
  | .num _, n + 1, _ => by simp [tokens, parseValue]
  | .str _, n + 1, _ => by simp [tokens, parseValue]
  | .huge _, n + 1, _ => by simp [tokens, parseValue]
  | .arr es, n + 1, hn => by
    have h := parseElems_tokens fail es n rest (by simp [tokens] at hn; omega)
    rw [tokens_arr_append, parseValue, h]
  | .obj fs, n + 1, hn => by
    have h := parseFields_tokens fail fs n rest (by simp [tokens] at hn; omega)
    rw [tokens_obj_append, parseValue, h]
  | .null, 0, hn => by simp [tokens] at hn
  | .bool _, 0, hn => by simp [tokens] at hn
  | .num _, 0, hn => by simp [tokens] at hn
  | .str _, 0, hn => by simp [tokens] at hn
  | .huge _, 0, hn => by simp [tokens] at hn
  | .arr _, 0, hn => by simp [tokens] at hn
  | .obj _, 0, hn => by simp [tokens] at hn
/-- Reading back the lexemes of array elements up to the closing `]`. -/
theorem parseElems_tokens (fail : Error) (es : List Value) (n : Nat) (rest : List Token)
    (hn : (elemTokens es).length + 1 ≤ n) :
    parseElems fail n (elemTokens es ++ .delim .rbrack :: rest) = .ok (es, rest) :=
  match es, n, hn with
  | [], n + 1, _ => by simp [elemTokens, parseElems]
  | v :: vs, n + 1, hn => by
    obtain ⟨t, ts, hts, ht, _⟩ := tokens_head v
    have hlen : 1 ≤ (tokens v).length := by rw [hts]; simp
    have h1 := parseValue_tokens fail v n (elemTokens vs ++ .delim .rbrack :: rest)
      (by simp [elemTokens] at hn; omega)
    have h2 := parseElems_tokens fail vs n rest (by simp [elemTokens] at hn; omega)
    rw [elemTokens_cons_append]
    rw [hts] at h1 ⊢
    rw [List.cons_append] at h1 ⊢
    rw [parseElems_cons fail n t _ ht, h1]
    simp only []
    rw [h2]
  | [], 0, hn => by simp at hn
  | _ :: _, 0, hn => by simp at hn
/-- Reading back the lexemes of object fields up to the closing `}`. -/
theorem parseFields_tokens (fail : Error) (fs : List (String × Value)) (n : Nat)
    (rest : List Token) (hn : (fieldTokens fs).length + 1 ≤ n) :
    parseFields fail n (fieldTokens fs ++ .delim .rbrace :: rest) = .ok (fs, rest) :=
  match fs, n, hn with
  | [], n + 1, _ => by simp [fieldTokens, parseFields]
  | (k, v) :: fs, n + 1, hn => by
    have h1 := parseValue_tokens fail v n (fieldTokens fs ++ .delim .rbrace :: rest)
      (by simp [fieldTokens] at hn; omega)
    have h2 := parseFields_tokens fail fs n rest (by simp [fieldTokens] at hn; omega)
    rw [fieldTokens_cons_append, parseFields, h1]
    simp only []
    rw [h2]
  | [], 0, hn => by simp at hn
  | _ :: _, 0, hn => by simp at hn
end

theorem Decode_tokens (v : Value) (rest : List Token) (fail : Error) (dst : Dst) :
    Decoder.Decode ⟨tokens v ++ rest, fail⟩ dst = ⟨dst v, some v, ⟨rest, fail⟩⟩ := by
  obtain ⟨t, ts, hts, _, _⟩ := tokens_head v
  have h := parseValue_tokens fail v (2 * (ts ++ rest).length + 3) rest
    (by rw [hts]; simp; omega)
  rw [hts] at h ⊢
  simp only [List.cons_append] at h
  simp only [Decoder.Decode, List.cons_append, h]

theorem More_tokens (v : Value) (rest : List Token) (fail : Error) :
    Decoder.More ⟨tokens v ++ rest, fail⟩ = true := by
  cases v <;> simp [tokens, Decoder.More]

/-- An invocation with an element ahead: `getDst` is called, the element is decoded into
the destination, and the pair returned depends on what the destination reports. -/
theorem call_elem (v : Value) (rest : List Token) (fail : Error) (g : Dst) :
    (Cursor.iter ⟨tokens v ++ rest, fail⟩ g).call =
      (if g v = some .eof then ⟨false, none, true, some v⟩ else ⟨true, g v, true, some v⟩,
        .iter ⟨rest, fail⟩ g) := by
  simp only [Cursor.call, More_tokens, Decode_tokens, Bool.not_true, Bool.false_eq_true,
    if_false]
  split <;> rfl

/-- An invocation with `]` ahead reads it and reports exhaustion. -/
theorem call_close (rest : List Token) (fail : Error) (g : Dst) :
    (Cursor.iter ⟨.delim .rbrack :: rest, fail⟩ g).call =
      (⟨false, none, false, none⟩, .iter ⟨rest, fail⟩ g) := by
  simp [Cursor.call, Decoder.More, expectDelim_hit]

/-- An invocation when the decoder has nothing left reports the decoder's error. -/
theorem call_end (fail : Error) (g : Dst) :
    (Cursor.iter ⟨[], fail⟩ g).call =
      (⟨false, some fail, false, none⟩, .iter ⟨[], fail⟩ g) := by
  simp [Cursor.call, Decoder.More, expectDelim_nil]

/-- After `k` invocations the first `k` elements have been read. -/
theorem after_elems (tail : List Token) (fail : Error) (g : Dst) (k : Nat) :
    ∀ es : List Value, k ≤ es.length →
      Cursor.after k (.iter ⟨elemTokens es ++ tail, fail⟩ g) =
        .iter ⟨elemTokens (es.drop k) ++ tail, fail⟩ g := by
  induction k with
  | zero => intro es _; rfl
  | succ k ih =>
    intro es hk
    cases es with
    | nil => simp at hk
    | cons v vs =>
      rw [Cursor.after, elemTokens_cons_append, call_elem]
      simp only [List.drop_succ_cons]
      exact ih vs (by simpa using hk)

theorem nth_elem (tail : List Token) (fail : Error) (g : Dst) (es : List Value) (i : Nat)
    (hi : i < es.length) :
    (Cursor.iter ⟨elemTokens es ++ tail, fail⟩ g).nth i = elemPull g (es.get ⟨i, hi⟩) := by
  rw [Cursor.nth, after_elems tail fail g i es (Nat.le_of_lt hi)]
  have hd : es.drop i = es.get ⟨i, hi⟩ :: es.drop (i + 1) := by
    simp
  rw [hd, elemTokens_cons_append, call_elem]
  rfl

theorem nth_close (tail : List Token) (fail : Error) (g : Dst) (es : List Value) :
    (Cursor.iter ⟨elemTokens es ++ .delim .rbrack :: tail, fail⟩ g).nth es.length =
      exhausted := by
  rw [Cursor.nth, after_elems _ fail g es.length es (le_refl _)]
  simp only [List.drop_length, elemTokens, List.nil_append]
  rw [call_close]
  rfl

theorem after_close (tail : List Token) (fail : Error) (g : Dst) (es : List Value) :
    Cursor.after (es.length + 1) (.iter ⟨elemTokens es ++ .delim .rbrack :: tail, fail⟩ g) =
      .iter ⟨tail, fail⟩ g := by
  have h : ∀ (k : Nat) (c : Cursor), Cursor.after (k + 1) c = (Cursor.after k c).call.2 := by
    intro k
    induction k with
    | zero => intro c; rfl
    | succ k ih => intro c; rw [Cursor.after, ih]; rfl
  rw [h, after_elems _ fail g es.length es (le_refl _)]
  simp only [List.drop_length, elemTokens, List.nil_append]
  rw [call_close]

theorem after_end (fail : Error) (g : Dst) (k : Nat) :
    Cursor.after k (.iter ⟨[], fail⟩ g) = .iter ⟨[], fail⟩ g := by
  induction k with
  | zero => rfl
  | succ k ih => rw [Cursor.after, call_end]; exact ih

theorem after_add (j k : Nat) (c : Cursor) :
    Cursor.after (j + k) c = Cursor.after k (Cursor.after j c) := by
  induction j generalizing c with
  | zero => simp [Cursor.after]
  | succ j ih =>
    have : j + 1 + k = (j + k) + 1 := by omega
    rw [this, Cursor.after, Cursor.after, ih]

theorem after_failed (err : Error) (k : Nat) :
    Cursor.after k (.failed err) = .failed err := by
  induction k with
  | zero => rfl
  | succ k ih => rw [Cursor.after]; exact ih

theorem nth_failed (err : Error) (k : Nat) :
    (Cursor.failed err).nth k = ⟨false, some err, false, none⟩ := by
  rw [Cursor.nth, after_failed]; rfl

theorem trackPath_found (d : Value) (path : List String) (v : Value) (tail : List Token)
    (fail : Error) (h : descend path d = .found v) (hs : skippedOk path d = true) :
    trackPath ⟨tokens d ++ tail, fail⟩ path =
      (none, ⟨tokens v ++ restAfter path d tail, fail⟩) := by
  cases path with
  | nil =>
    simp only [descend, Descent.found.injEq] at h
    subst h
    simp [trackPath, restAfter]
  | cons p ps =>
    have hl : (p :: ps).length ≠ 0 := by simp
    rw [trackPath, if_neg hl, trackLoop_found _ fail ps p d 0 0 tail v h hs]
    simp [finish]

theorem trackPath_lost (d : Value) (path : List String) (fail : Error)
    (h : ∀ v, descend path d ≠ .found v) (hs : skippedOk path d = true) :
    (trackPath ⟨tokens d, fail⟩ path).1 = some ErrNotFound := by
  cases path with
  | nil => exact absurd rfl (h d)
  | cons p ps =>
    have hl : (p :: ps).length ≠ 0 := by simp
    have := trackLoop_lost (p :: ps).length fail ps p d 0 0 [] h hs (le_refl _)
      (by simp) rfl
    rw [trackPath, if_neg hl]
    simpa using this

/-- On a document in which a sibling passed over has a number that does not fit,
`trackPath` returns the decoder's `UnmarshalTypeError`. -/
theorem trackPath_fails (d : Value) (path : List String) (fail : Error)
    (hs : skippedOk path d = false) :
    (trackPath ⟨tokens d, fail⟩ path).1 = some .unmarshalType := by
  cases path with
  | nil => simp [skippedOk] at hs
  | cons p ps =>
    have hl : (p :: ps).length ≠ 0 := by simp
    have := trackLoop_fails (p :: ps).length fail ps p d 0 0 [] hs
    rw [trackPath, if_neg hl]
    simpa using this

/-- When `trackPath` returns an error, the cursor is the one of `errIterator`. -/
theorem SliceIterator_of_error (r : Decoder) (g : Dst) (path : List String) (e : Error)
    (h : (trackPath r path).1 = some e) : SliceIterator r g path = errIterator e := by
  rw [SliceIterator]
  split
  · rename_i err _ heq
    rw [heq] at h
    simp only [Option.some.injEq] at h
    rw [h]
  · rename_i dec1 heq
    rw [heq] at h
    simp at h

theorem SliceIterator_lost (d : Value) (path : List String) (fail : Error) (g : Dst)
    (h : ∀ v, descend path d ≠ .found v) (hs : skippedOk path d = true) :
    SliceIterator ⟨tokens d, fail⟩ g path = errIterator ErrNotFound :=
  SliceIterator_of_error _ g path _ (trackPath_lost d path fail h hs)

theorem SliceIterator_fails (d : Value) (path : List String) (fail : Error) (g : Dst)
    (hs : skippedOk path d = false) :
    SliceIterator ⟨tokens d, fail⟩ g path = errIterator .unmarshalType :=
  SliceIterator_of_error _ g path _ (trackPath_fails d path fail hs)

theorem SliceIterator_array (d : Value) (path : List String) (es : List Value)
    (fail : Error) (g : Dst) (h : descend path d = .found (.arr es))
    (hs : skippedOk path d = true) :
    SliceIterator ⟨tokens d, fail⟩ g path =
      .iter ⟨elemTokens es ++ .delim .rbrack :: restAfter path d [], fail⟩ g := by
  have h1 := trackPath_found d path (.arr es) [] fail h hs
  rw [List.append_nil] at h1
  rw [SliceIterator, h1]
  simp only []
  rw [tokens_arr_append, expectDelim_hit]

/-- On a value that is not an array, `expectDelim(dec, '[')` fails with an error that
depends on the value only. -/
theorem expectDelim_not_array (v : Value) (tail : List Token) (fail : Error)
    (hv : ∀ es, v ≠ .arr es) :
    (expectDelim ⟨tokens v ++ tail, fail⟩ .lbrack).1 = some (notArrayError v) := by
  cases v with
  | arr es => exact absurd rfl (hv es)
  | null => simp [tokens, expectDelim, Decoder.Token, notArrayError]
  | bool b => simp [tokens, expectDelim, Decoder.Token, notArrayError]
  | num n => simp [tokens, expectDelim, Decoder.Token, notArrayError]
  | str x => simp [tokens, expectDelim, Decoder.Token, notArrayError]
  | huge l => simp [tokens, expectDelim, Decoder.Token, notArrayError]
  | obj fs => simp [tokens, expectDelim, Decoder.Token, notArrayError]

theorem notArrayError_ne (v : Value) : notArrayError v ≠ ErrNotFound := by
  cases v <;> simp [notArrayError, ErrNotFound]

theorem SliceIterator_not_array (d : Value) (path : List String) (v : Value)
    (fail : Error) (g : Dst) (h : descend path d = .found v) (hv : ∀ es, v ≠ .arr es)
    (hs : skippedOk path d = true) :
    SliceIterator ⟨tokens d, fail⟩ g path = errIterator (notArrayError v) := by
  have h1 := trackPath_found d path v [] fail h hs
  rw [List.append_nil] at h1
  have h2 := expectDelim_not_array v (restAfter path d []) fail hv
  rw [SliceIterator, h1]
  simp only []
  split
  · rename_i err _ heq
    rw [heq] at h2
    simp only [Option.some.injEq] at h2
    rw [h2]
  · rename_i dec2 heq
    rw [heq] at h2
    simp at h2

/-- The consumer loop on the elements of an array sees the elements and the
destination only, not what follows the array. -/
theorem run_elems (tail : List Token) (fail : Error) (g : Dst) (k : Nat) :
    ∀ es : List Value,
      Cursor.run k (.iter ⟨elemTokens es ++ .delim .rbrack :: tail, fail⟩ g) =
        yieldSpec g k es := by
  induction k with
  | zero => intro es; rfl
  | succ k ih =>
    intro es
    cases es with
    | nil =>
      simp only [elemTokens, List.nil_append]
      rw [Cursor.run, call_close]
      simp [yieldSpec, exhausted]
    | cons v vs =>
      rw [elemTokens_cons_append, Cursor.run, call_elem]
      simp only [yieldSpec]
      rw [ih vs]
      rfl

/-- Insertion of siblings keeps the first field named `p`, up to `R` on its value, and
keeps whether the fields before it are readable when the inserted ones are. -/
theorem InsFields_lookup (p : String) (ok : Value → Prop) (R : Value → Value → Prop)
    (fs1 fs2 : List (String × Value)) (h : InsFields p ok R fs1 fs2) :
    (lookup p fs1 = none ∧ lookup p fs2 = none) ∨
      ∃ v1 v2, lookup p fs1 = some v1 ∧ lookup p fs2 = some v2 ∧ R v1 v2 := by
  induction h with
  | nil => left; simp [lookup]
  | keep k v fs1 fs2 hk _ ih => simpa [lookup, hk] using ih
  | ins k v fs1 fs2 hk _ _ ih => simpa [lookup, hk] using ih
  | target v1 v2 fs1 fs2 hR _ => right; exact ⟨v1, v2, by simp [lookup], by simp [lookup], hR⟩

theorem InsFields_readable (p : String) (R : Value → Value → Prop)
    (fs1 fs2 : List (String × Value))
    (h : InsFields p (fun v => v.readable = true) R fs1 fs2) :
    readableFields (fieldsBefore p fs1) = readableFields (fieldsBefore p fs2) := by
  induction h with
  | nil => rfl
  | keep k v fs1 fs2 hk _ ih =>
    rw [fieldsBefore_cons_ne p k v fs1 hk, fieldsBefore_cons_ne p k v fs2 hk,
      readableFields_cons, readableFields_cons, ih]
  | ins k v fs1 fs2 hk hv _ ih =>
    rw [fieldsBefore_cons_ne p k v fs2 hk, readableFields_cons, hv, Bool.true_and, ih]
  | target v1 v2 fs1 fs2 _ _ => simp [fieldsBefore]

/-- Inserting siblings along the path does not change where the path leads. -/
theorem PaddedBy_descend (ok : Value → Prop) (path : List String) :
    ∀ d1 d2 : Value, PaddedBy ok path d1 d2 → descend path d1 = descend path d2 := by
  induction path with
  | nil => intro d1 d2 h; simp only [PaddedBy] at h; rw [h]
  | cons p ps ih =>
    intro d1 d2 h
    cases d1 with
    | obj fs1 =>
      cases d2 with
      | obj fs2 =>
        simp only [PaddedBy] at h
        rcases InsFields_lookup p _ _ fs1 fs2 h with ⟨h1, h2⟩ | ⟨v1, v2, h1, h2, hR⟩
        · simp [descend, h1, h2]
        · simp only [descend, h1, h2]
          exact ih v1 v2 hR
      | null => simp [PaddedBy] at h
      | bool _ => simp [PaddedBy] at h
      | num _ => simp [PaddedBy] at h
      | str _ => simp [PaddedBy] at h
      | huge _ => simp [PaddedBy] at h
      | arr _ => simp [PaddedBy] at h
    | null => simp only [PaddedBy] at h; rw [h]
    | bool _ => simp only [PaddedBy] at h; rw [h]
    | num _ => simp only [PaddedBy] at h; rw [h]
    | str _ => simp only [PaddedBy] at h; rw [h]
    | huge _ => simp only [PaddedBy] at h; rw [h]
    | arr _ => simp only [PaddedBy] at h; rw [h]

/-- Inserting readable siblings along the path does not change whether the siblings
passed over are readable. -/
theorem PaddedRead_skippedOk (path : List String) :
    ∀ d1 d2 : Value, PaddedRead path d1 d2 → skippedOk path d1 = skippedOk path d2 := by
  induction path with
  | nil => intro d1 d2 _; rfl
  | cons p ps ih =>
    intro d1 d2 h
    cases d1 with
    | obj fs1 =>
      cases d2 with
      | obj fs2 =>
        simp only [PaddedRead, PaddedBy] at h
        rw [skippedOk_obj, skippedOk_obj, InsFields_readable p _ fs1 fs2 h]
        rcases InsFields_lookup p _ _ fs1 fs2 h with ⟨h1, h2⟩ | ⟨v1, v2, h1, h2, hR⟩
        · rw [h1, h2]
        · rw [h1, h2]
          simp only []
          rw [ih v1 v2 hR]
      | null => simp [PaddedRead, PaddedBy] at h
      | bool _ => simp [PaddedRead, PaddedBy] at h
      | num _ => simp [PaddedRead, PaddedBy] at h
      | str _ => simp [PaddedRead, PaddedBy] at h
      | huge _ => simp [PaddedRead, PaddedBy] at h
      | arr _ => simp [PaddedRead, PaddedBy] at h
    | null => simp only [PaddedRead, PaddedBy] at h; rw [h]
    | bool _ => simp only [PaddedRead, PaddedBy] at h; rw [h]
    | num _ => simp only [PaddedRead, PaddedBy] at h; rw [h]
    | str _ => simp only [PaddedRead, PaddedBy] at h; rw [h]
    | huge _ => simp only [PaddedRead, PaddedBy] at h; rw [h]
    | arr _ => simp only [PaddedRead, PaddedBy] at h; rw [h]

theorem scanFields_pre (field : String) (fail : Error) (pre : List (String × Value))
    (hpre : ∀ kv ∈ pre, kv.1 ≠ field) (hr : readableFields pre = true)
    (rest : List Token) :
    scanFields field fail (fieldTokens pre ++ rest) = scanFields field fail rest := by
  induction pre with
  | nil => rfl
  | cons kv pre ih =>
    obtain ⟨k, v⟩ := kv
    rw [readableFields_cons, Bool.and_eq_true] at hr
    rw [fieldTokens_cons_append,
      scanFields_skip field fail k v (hpre (k, v) (by simp)) hr.1]
    exact ih (fun kv hkv => hpre kv (by simp [hkv])) hr.2

/-- Fields with other names, one of them with a number that does not fit, make the
scan return the decoder's `UnmarshalTypeError`. -/
theorem scanFields_pre_fails (field : String) (fail : Error)
    (pre : List (String × Value)) (hpre : ∀ kv ∈ pre, kv.1 ≠ field)
    (hr : readableFields pre = false) (rest : List Token) :
    ∃ dec2, scanFields field fail (fieldTokens pre ++ rest) = .ret .unmarshalType dec2 := by
  induction pre with
  | nil => simp [readableFields] at hr
  | cons kv pre ih =>
    obtain ⟨k, v⟩ := kv
    rw [readableFields_cons] at hr
    rw [fieldTokens_cons_append]
    cases hv : v.readable with
    | false => exact scanFields_skip_fails field fail k v (hpre (k, v) (by simp)) hv _
    | true =>
      rw [hv, Bool.true_and] at hr
      rw [scanFields_skip field fail k v (hpre (k, v) (by simp)) hv]
      exact ih (fun kv hkv => hpre kv (by simp [hkv])) hr

theorem scanFields_bad (field : String) (fail : Error) (t : Token) (ts : List Token)
    (h1 : t ≠ .delim .rbrace) (h2 : ∀ s, t ≠ .str s) (h3 : t.delivered = true) :
    scanFields field fail (t :: ts) = .ret (.fieldName t) ⟨ts, fail⟩ := by
  rw [scanFields.eq_def]
  rcases t with (d | s | n | b | _ | l | d)
  · cases d <;> simp at h1 ⊢
  · exact absurd rfl (h2 s)
  · simp
  · simp
  · simp
  · simp [Token.delivered] at h3
  · simp [Token.delivered] at h3

theorem scanFields_deep (field : String) (fail : Error) (d : Delim) (ts : List Token) :
    scanFields field fail (.deep d :: ts) = .ret .maxDepth ⟨ts, fail⟩ := by
  rw [scanFields.eq_def]

theorem scanFields_huge (field : String) (fail : Error) (l : String) (ts : List Token) :
    scanFields field fail (.huge l :: ts) = .ret .unmarshalType ⟨ts, fail⟩ := by
  rw [scanFields.eq_def]

theorem opening_open (lim : Option Nat) (lvl : Nat) (d : Delim) (h : opensAt lim lvl = true) :
    opening lim lvl d = .delim d := by
  simp [opening, h]

theorem opening_shut (lim : Option Nat) (lvl : Nat) (d : Delim) (h : opensAt lim lvl = false) :
    opening lim lvl d = .deep d := by
  simp [opening, h]

mutual
/-- A decoder reads a value nested within its limit as the lexemes `tokens` gives. -/
theorem lexemes_within (lim : Option Nat) (lvl : Nat) (v : Value)
    (hv : v.within lim lvl = true) : lexemes lim lvl v = tokens v :=
  match v, hv with
  | .null, _ => rfl
  | .bool _, _ => rfl
  | .num _, _ => rfl
  | .str _, _ => rfl
  | .huge _, _ => rfl
  | .arr es, hv => by
    simp only [Value.within, Bool.and_eq_true] at hv
    simp only [lexemes, tokens]
    rw [opening_open lim lvl _ hv.1, elemLexemes_within lim (lvl + 1) es hv.2]
  | .obj fs, hv => by
    simp only [Value.within, Bool.and_eq_true] at hv
    simp only [lexemes, tokens]
    rw [opening_open lim lvl _ hv.1, fieldLexemes_within lim (lvl + 1) fs hv.2]
/-- Array elements nested within the limit are read as `elemTokens` gives them. -/
theorem elemLexemes_within (lim : Option Nat) (lvl : Nat) (es : List Value)
    (hes : withinElems lim lvl es = true) : elemLexemes lim lvl es = elemTokens es :=
  match es, hes with
  | [], _ => rfl
  | v :: vs, hes => by
    simp only [withinElems, Bool.and_eq_true] at hes
    simp only [elemLexemes, elemTokens]
    rw [lexemes_within lim lvl v hes.1, elemLexemes_within lim lvl vs hes.2]
/-- Object fields nested within the limit are read as `fieldTokens` gives them. -/
theorem fieldLexemes_within (lim : Option Nat) (lvl : Nat) (fs : List (String × Value))
    (hfs : withinFields lim lvl fs = true) : fieldLexemes lim lvl fs = fieldTokens fs :=
  match fs, hfs with
  | [], _ => rfl
  | (k, v) :: fs, hfs => by
    simp only [withinFields, Bool.and_eq_true] at hfs
    simp only [fieldLexemes, fieldTokens]
    rw [lexemes_within lim lvl v hfs.1, fieldLexemes_within lim lvl fs hfs.2]
end

/-- The skipping loop on the lexemes of arrays nested one in another below the level at
which the decoder's nesting limit is reached: the loop returns the decoder's error on
the delimiter beyond the limit. -/
theorem readLoop_nested_fails (fail : Error) (n : Nat) :
    ∀ (k lvl c : Nat) (rest : List Token), lvl ≤ n → n ≤ lvl + k →
      (readLoop fail (c + 1) (lexemes (some n) lvl (nested k) ++ rest)).1 =
        some .maxDepth := by
  intro k
  induction k with
  | zero =>
    intro lvl c rest h1 h2
    have hl : opensAt (some n) lvl = false := by simp [opensAt]; omega
    simp only [nested, lexemes]
    rw [opening_shut _ _ _ hl]
    rfl
  | succ k ih =>
    intro lvl c rest h1 h2
    simp only [nested, lexemes]
    cases hl : opensAt (some n) lvl with
    | false =>
      rw [opening_shut _ _ _ hl]
      rfl
    | true =>
      have hlt : lvl < n := by simpa [opensAt] using hl
      rw [opening_open _ _ _ hl]
      simp only [elemLexemes, List.cons_append, List.append_assoc, List.append_nil]
      rw [readLoop_lbrack]
      exact ih (lvl + 1) (c + 1) (.delim .rbrack :: ([] ++ rest)) (by omega) (by omega)

/-- Called inside arrays nested one in another deeper than the decoder's nesting limit
`n`, `readArrayOrObject` returns the decoder's error on the delimiter beyond the
limit. -/
theorem readArrayOrObject_nested_fails (fail : Error) (n k : Nat) (rest : List Token)
    (h1 : 0 < n) (h2 : n ≤ k) :
    (readArrayOrObject ⟨(lexemes (some n) 0 (nested k)).tail ++ rest, fail⟩).1 =
      some .maxDepth := by
  obtain ⟨k, rfl⟩ : ∃ j, k = j + 1 := ⟨k - 1, by omega⟩
  have hl : opensAt (some n) 0 = true := by simpa [opensAt] using h1
  simp only [nested, lexemes, readArrayOrObject]
  rw [opening_open _ _ _ hl]
  simp only [List.tail_cons, elemLexemes, List.append_nil, List.append_assoc]
  exact readLoop_nested_fails fail n k 1 0 _ (by omega) (by omega)

/-- The scan of an object level, passing over a sibling that holds arrays nested one
in another deeper than the decoder's nesting limit `n`, returns the decoder's error on
the delimiter beyond the limit. -/
theorem scanFields_nested_fails (field : String) (fail : Error) (n : Nat) (k : String)
    (j lvl : Nat) (rest : List Token) (hk : k ≠ field) (h2 : n ≤ lvl + j) :
    ∃ dec2, scanFields field fail (.str k :: (lexemes (some n) lvl (nested j) ++ rest)) =
      .ret .maxDepth dec2 := by
  cases hl : opensAt (some n) lvl with
  | false =>
    refine ⟨⟨(lexemes (some n) lvl (nested j) ++ rest).tail, fail⟩, ?_⟩
    cases j with
    | zero =>
      simp only [nested, lexemes]
      rw [opening_shut _ _ _ hl, scanFields.eq_def]
      simp [hk]
    | succ j =>
      simp only [nested, lexemes]
      rw [opening_shut _ _ _ hl, scanFields.eq_def]
      simp [hk]
  | true =>
    have hlt : lvl < n := by simpa [opensAt] using hl
    obtain ⟨j, rfl⟩ : ∃ m, j = m + 1 := ⟨j - 1, by omega⟩
    have hr := readLoop_nested_fails fail n j (lvl + 1) 0
      (.delim .rbrack :: rest) (by omega) (by omega)
    refine ⟨(readArrayOrObject
      ⟨lexemes (some n) (lvl + 1) (nested j) ++ .delim .rbrack :: rest, fail⟩).2, ?_⟩
    simp only [nested, lexemes]
    rw [opening_open _ _ _ hl]
    simp only [elemLexemes, List.cons_append, List.append_assoc, List.append_nil,
      List.nil_append]
    rw [scanFields_delim field fail k .lbrack _ hk]
    rcases hro : readArrayOrObject
      ⟨lexemes (some n) (lvl + 1) (nested j) ++ .delim .rbrack :: rest, fail⟩ with ⟨e, dec3⟩
    have he : e = some .maxDepth := by
      have := congrArg Prod.fst hro
      simp only [readArrayOrObject] at this
      rw [← this]
      exact hr
    subst he
    rfl

/-- A round of the segment loop on an object whose first field, not the one searched,
holds arrays nested deeper than the decoder's nesting limit: the loop returns the
decoder's error. -/
theorem trackLoop_nested_fails (len i fc : Nat) (field : String) (ps : List String)
    (fail : Error) (n : Nat) (k : String) (j lvl : Nat) (rest : List Token)
    (hk : k ≠ field) (h2 : n ≤ lvl + j) :
    (trackLoop len i (field :: ps) fc
      ⟨.delim .lbrace :: .str k :: (lexemes (some n) lvl (nested j) ++ rest), fail⟩).1 =
        some .maxDepth := by
  obtain ⟨dec2, hs⟩ := scanFields_nested_fails field fail n k j lvl rest hk h2
  rw [trackLoop, expectDelim_hit]
  simp only []
  rw [hs]

/-- The path of one segment through an object whose second field is the one searched. -/
theorem descend_second (k p : String) (v w : Value) (fs : List (String × Value))
    (hk : k ≠ p) : descend [p] (.obj ((k, v) :: (p, w) :: fs)) = .found w := by
  simp [descend, lookup, hk]

/-- The path of two segments through an object whose field holds an object with one
field of another name. -/
theorem descend_inner_missing (p q k : String) (v : Value) (hk : k ≠ q) :
    descend [p, q] (.obj [(p, .obj [(k, v)])]) = .missingKey := by
  simp [descend, lookup, hk]

/-- One sibling put before the only field of an object is an insertion of siblings. -/
theorem Padded_front (p k : String) (v w : Value) (hk : k ≠ p) :
    Padded [p] (.obj [(p, w)]) (.obj [(k, v), (p, w)]) := by
  simp only [Padded, PaddedBy]
  exact .ins _ _ _ _ hk trivial (.target _ _ _ _ (by simp [PaddedBy]) .nil)

/-- On an object whose first field, not the one searched, holds arrays nested deeper
than the decoder's nesting limit, `trackPath` returns the decoder's error. -/
theorem trackPath_nested_sibling (n j : Nat) (k p : String) (fs : List (String × Value))
    (ps : List String) (fail : Error) (hn : 0 < n) (hj : n ≤ 1 + j) (hk : k ≠ p) :
    (trackPath ⟨lexemes (some n) 0 (.obj ((k, nested j) :: fs)), fail⟩ (p :: ps)).1 =
      some .maxDepth := by
  have hl : opensAt (some n) 0 = true := by simpa [opensAt] using hn
  have hp : (p :: ps).length ≠ 0 := by simp
  simp only [lexemes, fieldLexemes]
  rw [opening_open _ _ _ hl, trackPath, if_neg hp]
  simp only [List.cons_append, List.append_assoc]
  exact trackLoop_nested_fails _ 0 0 p ps fail n k j 1 _ hk hj

/-- On an object whose field `p` holds an object whose first field, not the one
searched, holds arrays nested deeper than the decoder's nesting limit, `trackPath`
returns the decoder's error. -/
theorem trackPath_nested_inner (n j : Nat) (p q k : String) (fail : Error)
    (hn : 1 < n) (hj : n ≤ 2 + j) (hk : k ≠ q) :
    (trackPath ⟨lexemes (some n) 0 (.obj [(p, .obj [(k, nested j)])]), fail⟩ [p, q]).1 =
      some .maxDepth := by
  have hl0 : opensAt (some n) 0 = true := by simp [opensAt]; omega
  have hl1 : opensAt (some n) 1 = true := by simpa [opensAt] using hn
  have hp : ([p, q] : List String).length ≠ 0 := by simp
  simp only [lexemes, fieldLexemes]
  rw [opening_open _ _ _ hl0, opening_open _ _ _ hl1, trackPath, if_neg hp, trackLoop,
    expectDelim_hit]
  simp only [List.cons_append, List.append_assoc, List.nil_append]
  rw [scanFields_hit]
  simp only []
  exact trackLoop_nested_fails _ 1 1 q [] fail n k j 2 _ hk hj

/-- C1: for a document whose root is an array of `n` elements and the empty path, each
of the first `n` invocations of the cursor returns `(true, nil)` after calling `getDst`
and decoding the element of that position into the destination, and invocation `n + 1`
returns `(false, nil)`.  The destination is one that accepts the elements. -/
theorem SliceIterator_root_array (es : List Value) (fail : Error) (getDst : Dst)
    (hdst : ∀ v ∈ es, getDst v = none) :
    (∀ (i : Nat) (hi : i < es.length),
      (SliceIterator ⟨tokens (.arr es), fail⟩ getDst []).nth i =
        ⟨true, none, true, some (es.get ⟨i, hi⟩)⟩) ∧
    (SliceIterator ⟨tokens (.arr es), fail⟩ getDst []).nth es.length =
      ⟨false, none, false, none⟩ := by
  have hc := SliceIterator_array (.arr es) [] es fail getDst rfl rfl
  rw [hc]
  refine ⟨fun i hi => ?_, nth_close _ fail getDst es⟩
  rw [nth_elem _ fail getDst es i hi, elemPull, hdst _ (List.get_mem es i hi)]
  simp

/-- Instance of C1: the array of the package's test, `[1, 2]` as elements. -/
theorem SliceIterator_root_array_witness :
    (∀ v ∈ [Value.num 1, Value.num 2], (fun _ => none : Dst) v = none) ∧
    ((∀ (i : Nat) (hi : i < [Value.num 1, Value.num 2].length),
      (SliceIterator ⟨tokens (.arr [Value.num 1, Value.num 2]), .eof⟩ (fun _ => none) []).nth i =
        ⟨true, none, true, some ([Value.num 1, Value.num 2].get ⟨i, hi⟩)⟩) ∧
    (SliceIterator ⟨tokens (.arr [Value.num 1, Value.num 2]), .eof⟩ (fun _ => none) []).nth
        [Value.num 1, Value.num 2].length = ⟨false, none, false, none⟩) :=
  ⟨fun _ _ => rfl,
    SliceIterator_root_array [Value.num 1, Value.num 2] .eof (fun _ => none) (fun _ _ => rfl)⟩

/-- C2 fails as stated: in the well-formed object whose field `x` holds the number
`1e400` and whose field `p1` holds an array, the path `p1` leads to the array, yet
`trackPath` does not return `nil`: reading the value of `x` fails and `trackPath` returns
the decoder's `UnmarshalTypeError`.  With a decoder that opens 10000 levels, the same
happens when `x` holds arrays nested 10001 deep: `trackPath` returns the decoder's
error on the delimiter beyond the limit. -/
theorem trackPath_positions_counterexample :
    descend ["p1"] (.obj [("x", .huge "1e400"), ("p1", .arr [.num 1])]) =
      .found (.arr [.num 1]) ∧
    (trackPath ⟨tokens (.obj [("x", .huge "1e400"), ("p1", .arr [.num 1])]), .eof⟩
      ["p1"]).1 = some .unmarshalType ∧
    ¬ (trackPath ⟨tokens (.obj [("x", .huge "1e400"), ("p1", .arr [.num 1])]), .eof⟩
      ["p1"]).1 = none ∧
    descend ["p1"] (.obj [("x", nested 10000), ("p1", .arr [.num 1])]) =
      .found (.arr [.num 1]) ∧
    (trackPath ⟨lexemes (some 10000) 0 (.obj [("x", nested 10000), ("p1", .arr [.num 1])]),
      .eof⟩ ["p1"]).1 = some .maxDepth := by
  have h : (trackPath ⟨tokens (.obj [("x", .huge "1e400"), ("p1", .arr [.num 1])]), .eof⟩
      ["p1"]).1 = some .unmarshalType := by
    simp [trackPath, trackLoop, tokens, fieldTokens, elemTokens, scanFields, expectDelim,
      Decoder.Token]
  refine ⟨by simp [descend, lookup], h, ?_,
    descend_second "x" "p1" _ _ [] (by decide),
    trackPath_nested_sibling 10000 10000 "x" "p1" _ [] .eof (by omega) (by omega)
      (by decide)⟩
  rw [h]
  simp

/-- C2 as amended: for a document read by a decoder with the nesting limit `lim`
(`none` when it has no limit) and a path that leads, through the first occurrence of
each key, to a value `v`, the document nested no deeper than the limit and every number
in the sibling values passed over on the way fitting a `float64`, `trackPath` returns
`nil` and leaves the decoder with the lexemes of `v` next; when `v` is an array, the
cursor of `SliceIterator` stands on its elements and returns them in order, then
`(false, nil)`. -/
theorem trackPath_positions_at_value (lim : Option Nat) (d : Value) (path : List String)
    (v : Value) (fail : Error) (h : descend path d = .found v)
    (hs : skippedOk path d = true) (hw : d.within lim 0 = true) :
    trackPath ⟨lexemes lim 0 d, fail⟩ path =
      (none, ⟨tokens v ++ restAfter path d [], fail⟩) ∧
    ∀ (es : List Value) (getDst : Dst), v = .arr es →
      (∀ (i : Nat) (hi : i < es.length),
        (SliceIterator ⟨lexemes lim 0 d, fail⟩ getDst path).nth i =
          elemPull getDst (es.get ⟨i, hi⟩)) ∧
      (SliceIterator ⟨lexemes lim 0 d, fail⟩ getDst path).nth es.length =
        ⟨false, none, false, none⟩ := by
  rw [lexemes_within lim 0 d hw]
  refine ⟨?_, ?_⟩
  · have h1 := trackPath_found d path v [] fail h hs
    rw [List.append_nil] at h1
    exact h1
  · intro es getDst hv
    subst hv
    rw [SliceIterator_array d path es fail getDst h hs]
    exact ⟨fun i hi => nth_elem _ fail getDst es i hi, nth_close _ fail getDst es⟩

/-- Instance of amended C2: an object with a scalar field `x` and then a field `p1`
holding an object whose field `p2` is an array, followed by a field `z` with the number
`1e400`, which is not passed over; the path is `p1`, `p2`, the decoder limits nesting
to 10000 levels. -/
theorem trackPath_positions_at_value_witness :
    descend ["p1", "p2"]
      (.obj [("x", .num 0), ("p1", .obj [("p2", .arr [.num 1, .num 2])]),
        ("z", .huge "1e400")]) = .found (.arr [.num 1, .num 2]) ∧
    skippedOk ["p1", "p2"]
      (.obj [("x", .num 0), ("p1", .obj [("p2", .arr [.num 1, .num 2])]),
        ("z", .huge "1e400")]) = true ∧
    Value.within (some 10000) 0
      (.obj [("x", .num 0), ("p1", .obj [("p2", .arr [.num 1, .num 2])]),
        ("z", .huge "1e400")]) = true ∧
    (trackPath ⟨lexemes (some 10000) 0
      (.obj [("x", .num 0), ("p1", .obj [("p2", .arr [.num 1, .num 2])]),
        ("z", .huge "1e400")]), .eof⟩ ["p1", "p2"]).1 = none :=
  ⟨by simp [descend, lookup],
    by simp [skippedOk, lookup, fieldsBefore, readableFields, Value.readable],
    by simp [Value.within, withinFields, withinElems, opensAt],
    by rw [(trackPath_positions_at_value (some 10000)
      (.obj [("x", .num 0), ("p1", .obj [("p2", .arr [.num 1, .num 2])]),
        ("z", .huge "1e400")]) ["p1", "p2"]
      (.arr [.num 1, .num 2]) .eof (by simp [descend, lookup])
      (by simp [skippedOk, lookup, fieldsBefore, readableFields, Value.readable])
      (by simp [Value.within, withinFields, withinElems, opensAt])).1]⟩

/-- C3 fails as stated: in the well-formed object whose field `p1` holds an object with
the single field `x`, a number `1e400`, the path `p1`, `p2` reaches an object without
`p2`, yet `trackPath` does not return `ErrNotFound`: reading the value of `x` fails and
`trackPath` returns the decoder's `UnmarshalTypeError`.  With a decoder that opens 10000
levels, the same happens when `x` holds arrays nested 10001 deep: `trackPath` returns
the decoder's error on the delimiter beyond the limit. -/
theorem trackPath_missing_key_counterexample :
    descend ["p1", "p2"] (.obj [("p1", .obj [("x", .huge "1e400")])]) = .missingKey ∧
    (trackPath ⟨tokens (.obj [("p1", .obj [("x", .huge "1e400")])]), .eof⟩
      ["p1", "p2"]).1 = some .unmarshalType ∧
    ¬ (trackPath ⟨tokens (.obj [("p1", .obj [("x", .huge "1e400")])]), .eof⟩
      ["p1", "p2"]).1 = some ErrNotFound ∧
    descend ["p1", "p2"] (.obj [("p1", .obj [("x", nested 10000)])]) = .missingKey ∧
    (trackPath ⟨lexemes (some 10000) 0 (.obj [("p1", .obj [("x", nested 10000)])]), .eof⟩
      ["p1", "p2"]).1 = some .maxDepth := by
  have h : (trackPath ⟨tokens (.obj [("p1", .obj [("x", .huge "1e400")])]), .eof⟩
      ["p1", "p2"]).1 = some .unmarshalType := by
    simp [trackPath, trackLoop, tokens, fieldTokens, scanFields, expectDelim,
      Decoder.Token]
  refine ⟨by simp [descend, lookup], h, ?_,
    descend_inner_missing "p1" "p2" "x" _ (by decide),
    trackPath_nested_inner 10000 10000 "p1" "p2" "x" .eof (by omega) (by omega)
      (by decide)⟩
  rw [h]
  simp [ErrNotFound]

/-- C3 as amended: when following the path through the document reaches an object that
has no field named by the next segment, the document nested no deeper than the limit
`lim` of the decoder reading it (`none` when it has no limit) and every number in the
sibling values passed over on the way fitting a `float64`, `trackPath` returns
`ErrNotFound` and the cursor of `SliceIterator` returns `(false, ErrNotFound)` on every
invocation, without calling `getDst`. -/
theorem trackPath_missing_key (lim : Option Nat) (d : Value) (path : List String)
    (fail : Error) (getDst : Dst) (h : descend path d = .missingKey)
    (hs : skippedOk path d = true) (hw : d.within lim 0 = true) :
    (trackPath ⟨lexemes lim 0 d, fail⟩ path).1 = some ErrNotFound ∧
    ∀ k, (SliceIterator ⟨lexemes lim 0 d, fail⟩ getDst path).nth k =
      ⟨false, some ErrNotFound, false, none⟩ := by
  rw [lexemes_within lim 0 d hw]
  have hne : ∀ v, descend path d ≠ .found v := by
    intro v hv; rw [h] at hv; cases hv
  refine ⟨trackPath_lost d path fail hne hs, fun k => ?_⟩
  rw [SliceIterator_lost d path fail getDst hne hs]
  exact nth_failed _ k

/-- Instance of amended C3: an object whose field `p1` holds an object with the single
field `x`; the path is `p1`, `p2`, the decoder has no nesting limit. -/
theorem trackPath_missing_key_witness :
    descend ["p1", "p2"] (.obj [("p1", .obj [("x", .arr [.num 1])])]) = .missingKey ∧
    skippedOk ["p1", "p2"] (.obj [("p1", .obj [("x", .arr [.num 1])])]) = true ∧
    Value.within none 0 (.obj [("p1", .obj [("x", .arr [.num 1])])]) = true ∧
    (trackPath ⟨lexemes none 0 (.obj [("p1", .obj [("x", .arr [.num 1])])]), .eof⟩
      ["p1", "p2"]).1 = some ErrNotFound :=
  ⟨by simp [descend, lookup],
    by simp [skippedOk, lookup, fieldsBefore, readableFields, readableElems, Value.readable],
    by simp [Value.within, withinFields, withinElems, opensAt],
    (trackPath_missing_key none (.obj [("p1", .obj [("x", .arr [.num 1])])]) ["p1", "p2"]
      .eof (fun _ => none) (by simp [descend, lookup])
      (by simp [skippedOk, lookup, fieldsBefore, readableFields, readableElems,
        Value.readable])
      (by simp [Value.within, withinFields, withinElems, opensAt])).1⟩

/-- C4 fails as stated: inserting the well-formed scalar sibling `x`, the number
`1e400`, before `p1` changes what `trackPath` returns, from `nil` to the decoder's
`UnmarshalTypeError`.  With a decoder that opens 10000 levels, inserting as `x` arrays
nested 10001 deep changes it from `nil` to the decoder's error on the delimiter beyond
the limit. -/
theorem siblings_counterexample :
    Padded ["p1"] (.obj [("p1", .arr [.num 1])])
      (.obj [("x", .huge "1e400"), ("p1", .arr [.num 1])]) ∧
    (trackPath ⟨tokens (.obj [("p1", .arr [.num 1])]), .eof⟩ ["p1"]).1 = none ∧
    (trackPath ⟨tokens (.obj [("x", .huge "1e400"), ("p1", .arr [.num 1])]), .eof⟩
      ["p1"]).1 = some .unmarshalType ∧
    Padded ["p1"] (.obj [("p1", .arr [.num 1])])
      (.obj [("x", nested 10000), ("p1", .arr [.num 1])]) ∧
    (trackPath ⟨lexemes (some 10000) 0 (.obj [("p1", .arr [.num 1])]), .eof⟩
      ["p1"]).1 = none ∧
    (trackPath ⟨lexemes (some 10000) 0 (.obj [("x", nested 10000), ("p1", .arr [.num 1])]),
      .eof⟩ ["p1"]).1 = some .maxDepth := by
  refine ⟨Padded_front "p1" "x" _ _ (by decide), ?_, ?_,
    Padded_front "p1" "x" _ _ (by decide), ?_,
    trackPath_nested_sibling 10000 10000 "x" "p1" _ [] .eof (by omega) (by omega)
      (by decide)⟩
  · simp [trackPath, trackLoop, tokens, fieldTokens, elemTokens, scanFields, expectDelim,
      Decoder.Token, finish]
  · simp [trackPath, trackLoop, tokens, fieldTokens, elemTokens, scanFields, expectDelim,
      Decoder.Token]
  · simp [trackPath, trackLoop, lexemes, fieldLexemes, elemLexemes, opening, opensAt,
      scanFields, expectDelim, Decoder.Token, finish]

/-- C4 as amended: inserting sibling fields (scalars, objects, arrays) at the object
levels along the path, with names other than the segment searched at that level, before
or after the field searched, those inserted before it having numbers that fit a
`float64`, and the document with them nested no deeper than the limit `lim` of the
decoder reading it (`none` when it has no limit), changes neither the error `trackPath`
returns nor what the consumer loop collects from the cursor. -/
theorem siblings_do_not_matter (lim : Option Nat) (path : List String) (d1 d2 : Value)
    (fail : Error) (getDst : Dst) (h : PaddedRead path d1 d2)
    (hw1 : d1.within lim 0 = true) (hw2 : d2.within lim 0 = true) :
    (trackPath ⟨lexemes lim 0 d1, fail⟩ path).1 =
      (trackPath ⟨lexemes lim 0 d2, fail⟩ path).1 ∧
    ∀ k, (SliceIterator ⟨lexemes lim 0 d1, fail⟩ getDst path).run k =
      (SliceIterator ⟨lexemes lim 0 d2, fail⟩ getDst path).run k := by
  rw [lexemes_within lim 0 d1 hw1, lexemes_within lim 0 d2 hw2]
  have hd := PaddedBy_descend _ path d1 d2 h
  have hk := PaddedRead_skippedOk path d1 d2 h
  cases hs1 : skippedOk path d1 with
  | false =>
    have hs2 : skippedOk path d2 = false := by rw [← hk, hs1]
    refine ⟨by rw [trackPath_fails d1 path fail hs1, trackPath_fails d2 path fail hs2],
      fun k => ?_⟩
    rw [SliceIterator_fails d1 path fail getDst hs1,
      SliceIterator_fails d2 path fail getDst hs2]
  | true =>
    have hs2 : skippedOk path d2 = true := by rw [← hk, hs1]
    cases h1 : descend path d1 with
    | found v =>
      have h2 : descend path d2 = .found v := by rw [← hd, h1]
      have t1 := trackPath_found d1 path v [] fail h1 hs1
      have t2 := trackPath_found d2 path v [] fail h2 hs2
      rw [List.append_nil] at t1 t2
      refine ⟨by rw [t1, t2], fun k => ?_⟩
      by_cases hv : ∃ es, v = .arr es
      · obtain ⟨es, rfl⟩ := hv
        rw [SliceIterator_array d1 path es fail getDst h1 hs1,
          SliceIterator_array d2 path es fail getDst h2 hs2, run_elems, run_elems]
      · have hv2 : ∀ es, v ≠ .arr es := fun es he => hv ⟨es, he⟩
        rw [SliceIterator_not_array d1 path v fail getDst h1 hv2 hs1,
          SliceIterator_not_array d2 path v fail getDst h2 hv2 hs2]
    | missingKey =>
      have n1 : ∀ v, descend path d1 ≠ .found v := by
        intro v hv; rw [h1] at hv; cases hv
      have n2 : ∀ v, descend path d2 ≠ .found v := by
        intro v hv; rw [← hd, h1] at hv; cases hv
      refine ⟨by rw [trackPath_lost d1 path fail n1 hs1, trackPath_lost d2 path fail n2 hs2],
        fun k => ?_⟩
      rw [SliceIterator_lost d1 path fail getDst n1 hs1,
        SliceIterator_lost d2 path fail getDst n2 hs2]
    | notObject =>
      have n1 : ∀ v, descend path d1 ≠ .found v := by
        intro v hv; rw [h1] at hv; cases hv
      have n2 : ∀ v, descend path d2 ≠ .found v := by
        intro v hv; rw [← hd, h1] at hv; cases hv
      refine ⟨by rw [trackPath_lost d1 path fail n1 hs1, trackPath_lost d2 path fail n2 hs2],
        fun k => ?_⟩
      rw [SliceIterator_lost d1 path fail getDst n1 hs1,
        SliceIterator_lost d2 path fail getDst n2 hs2]

/-- Instance of amended C4: the object with the single field `p1` holding the array of
1 and 2, and the same object with a nested array inserted before `p1` as field `x` and
an object with a field `p1` of its own and a number `1e400` inserted after it as field
`y`; the decoder limits nesting to 10000 levels. -/
theorem siblings_do_not_matter_witness :
    PaddedRead ["p1"] (.obj [("p1", .arr [.num 1, .num 2])])
      (.obj [("x", .arr [.arr [.num 3]]), ("p1", .arr [.num 1, .num 2]),
        ("y", .obj [("p1", .num 4), ("q", .huge "1e400")])]) ∧
    Value.within (some 10000) 0 (.obj [("p1", .arr [.num 1, .num 2])]) = true ∧
    Value.within (some 10000) 0 (.obj [("x", .arr [.arr [.num 3]]),
      ("p1", .arr [.num 1, .num 2]),
      ("y", .obj [("p1", .num 4), ("q", .huge "1e400")])]) = true ∧
    ∀ k, (SliceIterator ⟨lexemes (some 10000) 0 (.obj [("p1", .arr [.num 1, .num 2])]),
        .eof⟩ (fun _ => none) ["p1"]).run k =
      (SliceIterator ⟨lexemes (some 10000) 0 (.obj [("x", .arr [.arr [.num 3]]),
        ("p1", .arr [.num 1, .num 2]),
        ("y", .obj [("p1", .num 4), ("q", .huge "1e400")])]), .eof⟩
        (fun _ => none) ["p1"]).run k :=
  have hp : PaddedRead ["p1"] (.obj [("p1", .arr [.num 1, .num 2])])
      (.obj [("x", .arr [.arr [.num 3]]), ("p1", .arr [.num 1, .num 2]),
        ("y", .obj [("p1", .num 4), ("q", .huge "1e400")])]) := by
    simp only [PaddedRead, PaddedBy]
    exact .ins _ _ _ _ (by decide)
      (by simp [Value.readable, readableElems])
      (.target _ _ _ _ (by simp [PaddedBy]) (.ins _ _ _ _ (by decide) .nil))
  ⟨hp, by simp [Value.within, withinFields, withinElems, opensAt],
    by simp [Value.within, withinFields, withinElems, opensAt],
    (siblings_do_not_matter (some 10000) ["p1"] _ _ .eof (fun _ => none) hp
      (by simp [Value.within, withinFields, withinElems, opensAt])
      (by simp [Value.within, withinFields, withinElems, opensAt])).2⟩

/-- C5 fails as stated: on the well-formed array holding the number `1e400`,
`readArrayOrObject`, called after the opening bracket, does not return `nil` nor leave
`rest`: the read of the number fails and the decoder's `UnmarshalTypeError` is returned
with the closing bracket still to be read.  Nor does it hold at any nesting depth for a
decoder that limits nesting: on arrays nested 10001 deep, read by a decoder that opens
10000 levels, the error of the decoder is returned. -/
theorem readArrayOrObject_counterexample :
    (Value.arr [.huge "1e400"]).isContainer = true ∧
    readArrayOrObject ⟨(tokens (.arr [.huge "1e400"])).tail ++ [.str "next"], .eof⟩ =
      (some .unmarshalType, ⟨[.delim .rbrack, .str "next"], .eof⟩) ∧
    ¬ readArrayOrObject ⟨(tokens (.arr [.huge "1e400"])).tail ++ [.str "next"], .eof⟩ =
      (none, ⟨[.str "next"], .eof⟩) ∧
    (readArrayOrObject
      ⟨(lexemes (some 10000) 0 (nested 10000)).tail ++ [.str "next"], .eof⟩).1 =
        some .maxDepth := by
  have h : readArrayOrObject
      ⟨(tokens (.arr [.huge "1e400"])).tail ++ [.str "next"], .eof⟩ =
      (some .unmarshalType, ⟨[.delim .rbrack, .str "next"], .eof⟩) := rfl
  refine ⟨rfl, h, ?_, ?_⟩
  · rw [h]
    simp
  · exact readArrayOrObject_nested_fails .eof 10000 10000 _ (by omega) (by omega)

/-- C5 as amended: for an array or object `v` standing at nesting level `lvl` of the
input of a decoder with the nesting limit `lim` (`none` when it has no limit), all of
whose numbers fit a `float64` and which is nested no deeper than the limit, and for any
lexemes `rest`: `readArrayOrObject` called on the lexemes of `v` without its opening
delimiter, followed by `rest`, returns `nil` and leaves exactly `rest`. -/
theorem readArrayOrObject_consumes_value (lim : Option Nat) (lvl : Nat) (v : Value)
    (rest : List Token) (fail : Error) (hv : v.isContainer = true)
    (hr : v.readable = true) (hw : v.within lim lvl = true) :
    readArrayOrObject ⟨(lexemes lim lvl v).tail ++ rest, fail⟩ = (none, ⟨rest, fail⟩) := by
  rw [lexemes_within lim lvl v hw]
  exact readArrayOrObject_tail fail v hv hr rest

/-- Instance of amended C5: an array holding an array and an object, standing at
level 1 of the input of a decoder that limits nesting to 10000 levels, followed by one
lexeme. -/
theorem readArrayOrObject_consumes_value_witness :
    (Value.arr [.arr [.num 1], .obj [("a", .arr [])]]).isContainer = true ∧
    (Value.arr [.arr [.num 1], .obj [("a", .arr [])]]).readable = true ∧
    (Value.arr [.arr [.num 1], .obj [("a", .arr [])]]).within (some 10000) 1 = true ∧
    readArrayOrObject
      ⟨(lexemes (some 10000) 1 (.arr [.arr [.num 1], .obj [("a", .arr [])]])).tail ++
        [.str "next"], .eof⟩ = (none, ⟨[.str "next"], .eof⟩) :=
  ⟨rfl, rfl, by simp [Value.within, withinFields, withinElems, opensAt],
    readArrayOrObject_consumes_value (some 10000) 1 _ [.str "next"] .eof rfl rfl
      (by simp [Value.within, withinFields, withinElems, opensAt])⟩

/-- C6, the code on a stream of two values, an empty object and then an object whose
field `b` holds an array, with the path `a`, `b`: the scan for `a` ends at the closing
brace of the first object without a match, the loop goes on to `b`, finds it in the
second object and `trackPath` returns `nil`, the decoder standing before the array. -/
theorem trackPath_nil_without_first_segment :
    scanFields "a" .eof (tokens (.obj []) ++ tokens (.obj [("b", .arr [.num 1])])).tail =
      .closed ⟨tokens (.obj [("b", .arr [.num 1])]), .eof⟩ ∧
    trackPath ⟨tokens (.obj []) ++ tokens (.obj [("b", .arr [.num 1])]), .eof⟩ ["a", "b"] =
      (none, ⟨tokens (.arr [.num 1]) ++ [.delim .rbrace], .eof⟩) := by
  constructor
  · simp [tokens, fieldTokens, elemTokens, scanFields]
  · simp [trackPath, trackLoop, tokens, fieldTokens, elemTokens, scanFields, expectDelim,
      Decoder.Token, finish]

/-- C7 fails as stated: on an object whose field `p1` holds the number 5, with the path
`p1`, `p2`, the token at the start of segment `p2` is a number, and `trackPath` returns
`ErrNotFound`, not an error different from it. -/
theorem trackPath_non_object_counterexample :
    ¬ ∃ e, (trackPath ⟨tokens (.obj [("p1", .num 5)]), .eof⟩ ["p1", "p2"]).1 = some e ∧
      e ≠ ErrNotFound := by
  have h : (trackPath ⟨tokens (.obj [("p1", .num 5)]), .eof⟩ ["p1", "p2"]).1 =
      some ErrNotFound := by
    simp [trackPath, trackLoop, tokens, fieldTokens, scanFields, expectDelim,
      Decoder.Token, finish]
  rintro ⟨e, he, hne⟩
  rw [h] at he
  exact hne (Option.some.inj he).symm

/-- C7 as amended: when, at the start of a path segment, the token read is not `{`,
the segment loop stops there and `trackPath` returns `ErrNotFound`, having read that one
token.  This holds at a segment of any index `i` (fewer than `i + 1` segments matched so
far), hence for the first segment of `trackPath`, and whenever following the path
through a document, past siblings whose numbers fit a `float64`, reaches a value that is
not an object. -/
theorem trackPath_non_object_not_found (len i fc : Nat) (field : String) (ps : List String)
    (t : Token) (ts : List Token) (fail : Error)
    (ht : t ≠ .delim .lbrace) (hfc : fc ≤ i) (hi : i < len) :
    trackLoop len i (field :: ps) fc ⟨t :: ts, fail⟩ = (some ErrNotFound, ⟨ts, fail⟩) ∧
    trackPath ⟨t :: ts, fail⟩ (field :: ps) = (some ErrNotFound, ⟨ts, fail⟩) ∧
    ∀ (d : Value) (path : List String), descend path d = .notObject →
      skippedOk path d = true →
      (trackPath ⟨tokens d, fail⟩ path).1 = some ErrNotFound := by
  obtain ⟨e, he⟩ := expectDelim_other .lbrace t ts fail ht
  refine ⟨?_, ?_, ?_⟩
  · rw [trackLoop, he]
    simp [finish_lt len fc (by omega)]
  · have hl : (field :: ps).length ≠ 0 := by simp
    rw [trackPath, if_neg hl, trackLoop, he]
    simp [finish, ErrNotFound]
  · intro d path h hs
    apply trackPath_lost _ _ _ _ hs
    intro v hv; rw [h] at hv; cases hv

/-- Instance of amended C7: the second segment, one segment matched, a number ahead. -/
theorem trackPath_non_object_not_found_witness :
    (Token.num 5 ≠ .delim .lbrace) ∧ (1 ≤ 1) ∧ (1 < 2) ∧
    trackLoop 2 1 ["p2"] 1 ⟨[.num 5, .delim .rbrace], .eof⟩ =
      (some ErrNotFound, ⟨[.delim .rbrace], .eof⟩) :=
  ⟨by decide, by decide, by decide,
    (trackPath_non_object_not_found 2 1 1 "p2" [] (.num 5) [.delim .rbrace] .eof
      (by decide) (by decide) (by decide)).1⟩

/-- C8, the code on two inputs whose first failing read is the read of a `{`: on the
empty input with the path `p1`, and on the input cut off after the name `p1` with the
path `p1`, `p2`, the decoder reports the end of the input and the cursor returns
`(false, ErrNotFound)`. -/
theorem SliceIterator_read_failure_as_not_found :
    (Decoder.Token ⟨[], .eof⟩).1 = .error .eof ∧
    (SliceIterator ⟨[], .eof⟩ (fun _ => none) ["p1"]).nth 0 =
      ⟨false, some ErrNotFound, false, none⟩ ∧
    (SliceIterator ⟨[.delim .lbrace, .str "p1"], .eof⟩ (fun _ => none) ["p1", "p2"]).nth 0 =
      ⟨false, some ErrNotFound, false, none⟩ := by
  refine ⟨rfl, ?_, ?_⟩
  · simp [SliceIterator, trackPath, trackLoop, expectDelim, Decoder.Token, finish,
      errIterator, Cursor.nth, Cursor.after, Cursor.call]
  · simp [SliceIterator, trackPath, trackLoop, expectDelim, Decoder.Token, finish,
      scanFields, errIterator, Cursor.nth, Cursor.after, Cursor.call]

/-- C9: when the scan of an object level for a field name, after any number of fields
with other names that it has passed over, reads a token that is neither `}` nor a
string, the segment loop returns the field-name error at once, an error that is neither
`nil` nor `ErrNotFound`, leaving the decoder right after that token; so does `trackPath`
on its first level.  When instead a read on the way fails (on a number outside the
`float64` range among the fields passed over, or on a lexeme in the place of the field
name that the decoder does not deliver), the error returned is the decoder's, and again
neither `nil` nor `ErrNotFound`. -/
theorem trackPath_non_string_field_name (len i fc : Nat) (field : String)
    (ps : List String) (pre : List (String × Value)) (t : Token) (ts : List Token)
    (fail : Error) (hpre : ∀ kv ∈ pre, kv.1 ≠ field)
    (h1 : t ≠ .delim .rbrace) (h2 : ∀ s, t ≠ .str s) :
    (readableFields pre = true → t.delivered = true →
      trackLoop len i (field :: ps) fc
          ⟨.delim .lbrace :: (fieldTokens pre ++ t :: ts), fail⟩ =
        (some (.fieldName t), ⟨ts, fail⟩) ∧
      trackPath ⟨.delim .lbrace :: (fieldTokens pre ++ t :: ts), fail⟩ (field :: ps) =
        (some (.fieldName t), ⟨ts, fail⟩)) ∧
    Error.fieldName t ≠ ErrNotFound ∧
    ∃ e, (trackLoop len i (field :: ps) fc
        ⟨.delim .lbrace :: (fieldTokens pre ++ t :: ts), fail⟩).1 = some e ∧
      e ≠ ErrNotFound := by
  have hl : (field :: ps).length ≠ 0 := by simp
  have hstep : ∀ (e : Error) (dec2 : Decoder),
      scanFields field fail (fieldTokens pre ++ t :: ts) = .ret e dec2 →
      ∀ len i fc, trackLoop len i (field :: ps) fc
        ⟨.delim .lbrace :: (fieldTokens pre ++ t :: ts), fail⟩ = (some e, dec2) := by
    intro e dec2 hs len i fc
    rw [trackLoop, expectDelim_hit]
    simp only []
    rw [hs]
  refine ⟨?_, by simp [ErrNotFound], ?_⟩
  · intro hr h3
    have hs : scanFields field fail (fieldTokens pre ++ t :: ts) =
        .ret (.fieldName t) ⟨ts, fail⟩ := by
      rw [scanFields_pre field fail pre hpre hr, scanFields_bad field fail t ts h1 h2 h3]
    refine ⟨hstep _ _ hs len i fc, ?_⟩
    rw [trackPath, if_neg hl]
    exact hstep _ _ hs _ 0 0
  · cases hr : readableFields pre with
    | false =>
      obtain ⟨dec2, hs⟩ := scanFields_pre_fails field fail pre hpre hr (t :: ts)
      exact ⟨.unmarshalType, by rw [hstep _ _ hs len i fc], by simp [ErrNotFound]⟩
    | true =>
      cases h3 : t.delivered with
      | false =>
        rcases Token.not_delivered t h3 with ⟨l, rfl⟩ | ⟨d, rfl⟩
        · have hs : scanFields field fail (fieldTokens pre ++ .huge l :: ts) =
              .ret .unmarshalType ⟨ts, fail⟩ := by
            rw [scanFields_pre field fail pre hpre hr, scanFields_huge]
          exact ⟨.unmarshalType, by rw [hstep _ _ hs len i fc], by simp [ErrNotFound]⟩
        · have hs : scanFields field fail (fieldTokens pre ++ .deep d :: ts) =
              .ret .maxDepth ⟨ts, fail⟩ := by
            rw [scanFields_pre field fail pre hpre hr, scanFields_deep]
          exact ⟨.maxDepth, by rw [hstep _ _ hs len i fc], by simp [ErrNotFound]⟩
      | true =>
        have hs : scanFields field fail (fieldTokens pre ++ t :: ts) =
            .ret (.fieldName t) ⟨ts, fail⟩ := by
          rw [scanFields_pre field fail pre hpre hr,
            scanFields_bad field fail t ts h1 h2 h3]
        exact ⟨.fieldName t, by rw [hstep _ _ hs len i fc], by simp [ErrNotFound]⟩

/-- Instance of C9: after a field `x` holding an array, a number stands where a field
name is expected. -/
theorem trackPath_non_string_field_name_witness :
    (∀ kv ∈ [("x", Value.arr [.num 1])], kv.1 ≠ "p1") ∧
    (Token.num 7 ≠ .delim .rbrace) ∧ (∀ s, Token.num 7 ≠ .str s) ∧
    readableFields [("x", Value.arr [.num 1])] = true ∧ (Token.num 7).delivered = true ∧
    trackPath ⟨.delim .lbrace ::
        (fieldTokens [("x", Value.arr [.num 1])] ++ .num 7 :: [.delim .rbrace]), .eof⟩ ["p1"] =
      (some (.fieldName (.num 7)), ⟨[.delim .rbrace], .eof⟩) :=
  ⟨by simp, by decide, by simp, rfl, rfl,
    ((trackPath_non_string_field_name 1 0 0 "p1" [] [("x", Value.arr [.num 1])] (.num 7)
      [.delim .rbrace] .eof (by simp) (by decide) (by simp)).1 rfl rfl).2⟩

/-- C10 fails as stated: on the empty array as the whole input, the first invocation
returns `(false, nil)` and the second returns `(false, io.EOF)`; on an object whose
only field `p1` holds the empty array, the invocation after the exhaustion reads the
closing brace of the object and returns an error. -/
theorem cursor_after_exhaustion_counterexample :
    (SliceIterator ⟨tokens (.arr []), .eof⟩ (fun _ => none) []).nth 0 =
      ⟨false, none, false, none⟩ ∧
    (SliceIterator ⟨tokens (.arr []), .eof⟩ (fun _ => none) []).nth 1 =
      ⟨false, some .eof, false, none⟩ ∧
    (SliceIterator ⟨tokens (.obj [("p1", .arr [])]), .eof⟩ (fun _ => none) ["p1"]).nth 0 =
      ⟨false, none, false, none⟩ ∧
    (SliceIterator ⟨tokens (.obj [("p1", .arr [])]), .eof⟩ (fun _ => none) ["p1"]).after 1 =
      .iter ⟨[.delim .rbrace], .eof⟩ (fun _ => none) ∧
    (SliceIterator ⟨tokens (.obj [("p1", .arr [])]), .eof⟩ (fun _ => none) ["p1"]).nth 1 =
      ⟨false, some (.unexpectedToken .rbrack (.delim .rbrace)), false, none⟩ ∧
    (SliceIterator ⟨tokens (.obj [("p1", .arr [])]), .eof⟩ (fun _ => none) ["p1"]).after 2 =
      .iter ⟨[], .eof⟩ (fun _ => none) := by
  have hc : SliceIterator ⟨tokens (.obj [("p1", .arr [])]), .eof⟩ (fun _ => none) ["p1"] =
      .iter ⟨[.delim .rbrack, .delim .rbrace], .eof⟩ (fun _ => none) := by
    simp [SliceIterator, trackPath, trackLoop, tokens, fieldTokens, elemTokens, scanFields,
      expectDelim, Decoder.Token, finish]
  rw [hc]
  refine ⟨rfl, rfl, rfl, rfl, rfl, rfl⟩

/-- C10 as amended: the cursor keeps no record of the exhaustion.  When the array is
the whole input, every invocation after the one that read `]` returns `(false, e)` with
`e` the error the decoder reports at the end of the input, without calling `getDst`,
and the decoder stays at the end of the input. -/
theorem cursor_after_exhaustion_at_end (es : List Value) (fail : Error) (getDst : Dst)
    (j : Nat) :
    (SliceIterator ⟨tokens (.arr es), fail⟩ getDst []).nth (es.length + 1 + j) =
      ⟨false, some fail, false, none⟩ ∧
    (SliceIterator ⟨tokens (.arr es), fail⟩ getDst []).after (es.length + 1 + j) =
      .iter ⟨[], fail⟩ getDst := by
  have hc := SliceIterator_array (.arr es) [] es fail getDst rfl rfl
  have ha : (SliceIterator ⟨tokens (.arr es), fail⟩ getDst []).after (es.length + 1 + j) =
      .iter ⟨[], fail⟩ getDst := by
    rw [hc, after_add, after_close]
    simp only [restAfter]
    exact after_end fail getDst j
  refine ⟨?_, ha⟩
  rw [Cursor.nth, ha, call_end]


/-- C11: when the setup fails with an error `e`, because `trackPath` returns `e` or
because the token after the resolved path is not `[` and `expectDelim` returns `e`, the
cursor is the one of `errIterator`: every invocation returns `(false, e)` without
calling `getDst`, and the cursor holds no decoder to read from, before and after. -/
theorem SliceIterator_setup_failure (r : Decoder) (getDst : Dst) (path : List String)
    (e : Error)
    (h : (trackPath r path).1 = some e ∨
      ((trackPath r path).1 = none ∧ (expectDelim (trackPath r path).2 .lbrack).1 = some e)) :
    SliceIterator r getDst path = errIterator e ∧
    ∀ k, (SliceIterator r getDst path).nth k = ⟨false, some e, false, none⟩ ∧
      (SliceIterator r getDst path).after k = errIterator e := by
  have hc : SliceIterator r getDst path = errIterator e := by
    rw [SliceIterator]
    rcases h with h | ⟨h1, h2⟩
    · split
      · rename_i err _ heq
        rw [heq] at h
        simp only [Option.some.injEq] at h
        rw [h]
      · rename_i dec1 heq
        rw [heq] at h
        simp at h
    · split
      · rename_i err _ heq
        rw [heq] at h1
        simp at h1
      · rename_i dec1 heq
        rw [heq] at h2
        simp only [] at h2
        split
        · rename_i err2 _ heq2
          rw [heq2] at h2
          simp only [Option.some.injEq] at h2
          rw [h2]
        · rename_i dec2 heq2
          rw [heq2] at h2
          simp at h2
  refine ⟨hc, fun k => ?_⟩
  rw [hc]
  exact ⟨nth_failed e k, after_failed e k⟩

/-- Instance of C11: the input is the number 1 and the path is empty, so the token after
the resolved path is not `[`. -/
theorem SliceIterator_setup_failure_witness :
    ((trackPath ⟨[.num 1], .eof⟩ []).1 = some (.unexpectedToken .lbrack (.num 1)) ∨
      ((trackPath ⟨[.num 1], .eof⟩ []).1 = none ∧
        (expectDelim (trackPath ⟨[.num 1], .eof⟩ []).2 .lbrack).1 =
          some (.unexpectedToken .lbrack (.num 1)))) ∧
    (SliceIterator ⟨[.num 1], .eof⟩ (fun _ => none) []).nth 3 =
      ⟨false, some (.unexpectedToken .lbrack (.num 1)), false, none⟩ :=
  ⟨Or.inr ⟨rfl, rfl⟩,
    ((SliceIterator_setup_failure ⟨[.num 1], .eof⟩ (fun _ => none) []
      (.unexpectedToken .lbrack (.num 1)) (Or.inr ⟨rfl, rfl⟩)).2 3).1⟩

/-- C12: when the path leads to a value that is not an array (the empty path leads to
the root), the first invocation of the cursor returns `(false, e)` with `e` an error
that is neither `nil` nor `ErrNotFound`: the error of `expectDelim`, or the decoder's
error when a read on the way fails; `getDst` is not called. -/
theorem SliceIterator_non_array (d : Value) (path : List String) (v : Value)
    (fail : Error) (getDst : Dst) (h : descend path d = .found v)
    (hv : ∀ es, v ≠ .arr es) :
    ∃ e, (SliceIterator ⟨tokens d, fail⟩ getDst path).nth 0 = ⟨false, some e, false, none⟩ ∧
      e ≠ ErrNotFound := by
  cases hs : skippedOk path d with
  | true =>
    refine ⟨notArrayError v, ?_, notArrayError_ne v⟩
    rw [SliceIterator_not_array d path v fail getDst h hv hs]
    exact nth_failed _ 0
  | false =>
    refine ⟨.unmarshalType, ?_, by simp [ErrNotFound]⟩
    rw [SliceIterator_fails d path fail getDst hs]
    exact nth_failed _ 0

/-- Instance of C12: the object whose field `p1` holds the number 123, path `p1`. -/
theorem SliceIterator_non_array_witness :
    descend ["p1"] (.obj [("p1", .num 123)]) = .found (.num 123) ∧
    (∀ es, Value.num 123 ≠ .arr es) ∧
    ∃ e, (SliceIterator ⟨tokens (.obj [("p1", .num 123)]), .eof⟩ (fun _ => none) ["p1"]).nth 0 =
        ⟨false, some e, false, none⟩ ∧ e ≠ ErrNotFound :=
  ⟨by simp [descend, lookup], by simp,
    SliceIterator_non_array (.obj [("p1", .num 123)]) ["p1"] (.num 123) .eof (fun _ => none)
      (by simp [descend, lookup]) (by simp)⟩

/-- C13: an invocation in which `dec.More()` is true and `dec.Decode(dst)` returns
`io.EOF` returns `(false, nil)`. -/
theorem cursor_decode_eof (dec : Decoder) (getDst : Dst) (hm : dec.More = true)
    (he : (dec.Decode getDst).err = some .eof) :
    (Cursor.iter dec getDst).call.1.more = false ∧
    (Cursor.iter dec getDst).call.1.err = none := by
  simp [Cursor.call, hm, he]

/-- Instance of C13: an element is ahead and the destination's unmarshaller returns
`io.EOF`. -/
theorem cursor_decode_eof_witness :
    Decoder.More ⟨[.num 1, .delim .rbrack], .eof⟩ = true ∧
    (Decoder.Decode ⟨[.num 1, .delim .rbrack], .eof⟩ (fun _ => some .eof)).err = some .eof ∧
    (Cursor.iter ⟨[.num 1, .delim .rbrack], .eof⟩ (fun _ => some .eof)).call.1.more = false ∧
    (Cursor.iter ⟨[.num 1, .delim .rbrack], .eof⟩ (fun _ => some .eof)).call.1.err = none :=
  ⟨rfl, rfl,
    cursor_decode_eof ⟨[.num 1, .delim .rbrack], .eof⟩ (fun _ => some .eof) rfl rfl⟩

/-- C14: with the empty path `trackPath` returns `nil` and the decoder is as it was. -/
theorem trackPath_empty_path (dec : Decoder) : trackPath dec [] = (none, dec) := by
  simp [trackPath]

/-- C16: an invocation in which `dec.More()` is false makes one token read, does not
call `getDst`, and returns `(false, r)`, `r` being `nil` exactly when the token read is
`]`, the decoder's error when the read fails, and the error of `expectDelim` for any
other token. -/
theorem cursor_no_more (dec : Decoder) (getDst : Dst) (hm : dec.More = false) :
    (Cursor.iter dec getDst).call.1.more = false ∧
    (Cursor.iter dec getDst).call.1.calledDst = false ∧
    (Cursor.iter dec getDst).call.2 = .iter dec.Token.2 getDst ∧
    ((Cursor.iter dec getDst).call.1.err = none ↔ dec.Token.1 = .ok (.delim .rbrack)) ∧
    (∀ err, dec.Token.1 = .error err → (Cursor.iter dec getDst).call.1.err = some err) ∧
    (∀ t, dec.Token.1 = .ok t → t ≠ .delim .rbrack →
      (Cursor.iter dec getDst).call.1.err = some (.unexpectedToken .rbrack t)) := by
  obtain ⟨toks, fail⟩ := dec
  cases toks with
  | nil => simp [Cursor.call, Decoder.More, expectDelim, Decoder.Token]
  | cons t ts =>
    rcases t with (d | s | n | b | _ | l | d)
    · cases d <;> simp [Cursor.call, Decoder.More, expectDelim, Decoder.Token] at hm ⊢
    all_goals simp [Decoder.More] at hm

/-- Instance of C16: the closing brace of an enclosing object is ahead. -/
theorem cursor_no_more_witness :
    Decoder.More ⟨[.delim .rbrace], .eof⟩ = false ∧
    (Cursor.iter ⟨[.delim .rbrace], .eof⟩ (fun _ => none)).call.2 =
      .iter ⟨[], .eof⟩ (fun _ => none) :=
  ⟨rfl, (cursor_no_more ⟨[.delim .rbrace], .eof⟩ (fun _ => none) rfl).2.2.1⟩

/-- C17: an invocation in which `dec.More()` is true and `dec.Decode(dst)` fails with an
error `e` other than `io.EOF` returns `(true, e)`. -/
theorem cursor_decode_error (dec : Decoder) (getDst : Dst) (e : Error)
    (hm : dec.More = true) (he : (dec.Decode getDst).err = some e) (hne : e ≠ .eof) :
    (Cursor.iter dec getDst).call.1.more = true ∧
    (Cursor.iter dec getDst).call.1.err = some e := by
  simp [Cursor.call, hm, he, hne]

/-- Instance of C17: the input ends inside the element, so that `Decode` reports
`io.ErrUnexpectedEOF` and stores nothing. -/
theorem cursor_decode_error_witness :
    Decoder.More ⟨[.delim .lbrace, .str "Value"], .eof⟩ = true ∧
    (Decoder.Decode ⟨[.delim .lbrace, .str "Value"], .eof⟩ (fun _ => none)).err =
      some .unexpectedEOF ∧
    Error.unexpectedEOF ≠ .eof ∧
    (Decoder.Decode ⟨[.delim .lbrace, .str "Value"], .eof⟩ (fun _ => none)).stored = none ∧
    (Cursor.iter ⟨[.delim .lbrace, .str "Value"], .eof⟩ (fun _ => none)).call.1.more = true ∧
    (Cursor.iter ⟨[.delim .lbrace, .str "Value"], .eof⟩ (fun _ => none)).call.1.err =
      some .unexpectedEOF :=
  ⟨rfl, by simp [Decoder.Decode, parseValue, parseFields, midValue], by decide,
    by simp [Decoder.Decode, parseValue, parseFields, midValue],
    cursor_decode_error ⟨[.delim .lbrace, .str "Value"], .eof⟩ (fun _ => none) .unexpectedEOF
      rfl (by simp [Decoder.Decode, parseValue, parseFields, midValue]) (by decide)⟩

/-- The skipping loop on a stream none of whose prefixes brings the counter to zero
returns an error of the decoder: the one it reports at the end of the stream, all of
which is used up, or the one of a failed read on the way. -/
theorem readLoop_unbalanced (fail : Error) (ts : List Token) :
    ∀ c : Nat, (∀ n, (c : Int) + 1 + ((ts.take n).map delimDelta).sum ≠ 0) →
      (allDelivered ts = true → readLoop fail (c + 1) ts = (some fail, [])) ∧
      ∃ e rest, readLoop fail (c + 1) ts = (some e, rest) ∧
        (e = fail ∨ e = .unmarshalType ∨ e = .maxDepth) := by
  induction ts with
  | nil => intro c _; exact ⟨fun _ => rfl, fail, [], rfl, Or.inl rfl⟩
  | cons t ts ih =>
    intro c h
    have h1 := h 1
    have hs : ∀ n, (c : Int) + 1 + delimDelta t + ((ts.take n).map delimDelta).sum ≠ 0 := by
      intro n
      have := h (n + 1)
      simp only [List.take_succ_cons, List.map_cons, List.sum_cons] at this
      omega
    simp only [List.take_succ_cons, List.take_zero, List.map_cons, List.map_nil,
      List.sum_cons, List.sum_nil] at h1
    have had : t.delivered = true → allDelivered (t :: ts) = allDelivered ts := by
      intro ht; simp [allDelivered, ht]
    rcases t with (d | s | n | b | _ | l | d)
    · rw [had rfl]
      cases d
      · simp only [delimDelta] at hs h1
        rw [readLoop_lbrace]
        exact ih (c + 1) (fun n => by have := hs n; push_cast; omega)
      · simp only [delimDelta] at hs h1
        rw [readLoop_rbrace]
        cases c with
        | zero => simp at h1
        | succ c => exact ih c (fun n => by have := hs n; push_cast at this; omega)
      · simp only [delimDelta] at hs h1
        rw [readLoop_lbrack]
        exact ih (c + 1) (fun n => by have := hs n; push_cast; omega)
      · simp only [delimDelta] at hs h1
        rw [readLoop_rbrack]
        cases c with
        | zero => simp at h1
        | succ c => exact ih c (fun n => by have := hs n; push_cast at this; omega)
    · simp only [delimDelta] at hs
      rw [had rfl, readLoop_str]
      exact ih c (fun n => by have := hs n; omega)
    · simp only [delimDelta] at hs
      rw [had rfl]
      show (allDelivered ts = true → readLoop fail (c + 1) ts = _) ∧
        ∃ e rest, readLoop fail (c + 1) ts = (some e, rest) ∧ _
      exact ih c (fun n => by have := hs n; omega)
    · simp only [delimDelta] at hs
      rw [had rfl]
      show (allDelivered ts = true → readLoop fail (c + 1) ts = _) ∧
        ∃ e rest, readLoop fail (c + 1) ts = (some e, rest) ∧ _
      exact ih c (fun n => by have := hs n; omega)
    · simp only [delimDelta] at hs
      rw [had rfl]
      show (allDelivered ts = true → readLoop fail (c + 1) ts = _) ∧
        ∃ e rest, readLoop fail (c + 1) ts = (some e, rest) ∧ _
      exact ih c (fun n => by have := hs n; omega)
    · exact ⟨fun hd => by simp [allDelivered, Token.delivered] at hd,
        .unmarshalType, ts, rfl, Or.inr (Or.inl rfl)⟩
    · exact ⟨fun hd => by simp [allDelivered, Token.delivered] at hd,
        .maxDepth, ts, rfl, Or.inr (Or.inr rfl)⟩

theorem readArrayOrObject_unbalanced (fail : Error) (ts : List Token)
    (h : ∀ n, depthAfter (ts.take n) ≠ 0) :
    (allDelivered ts = true → readArrayOrObject ⟨ts, fail⟩ = (some fail, ⟨[], fail⟩)) ∧
    ∃ e dec2, readArrayOrObject ⟨ts, fail⟩ = (some e, dec2) ∧
      (e = fail ∨ e = .unmarshalType ∨ e = .maxDepth) := by
  obtain ⟨h2, e, rest, h3, h4⟩ := readLoop_unbalanced fail ts 0 (fun n => by
    have := h n
    simp only [depthAfter] at this
    push_cast
    omega)
  refine ⟨fun hd => ?_, e, ⟨rest, fail⟩, ?_, h4⟩
  · simp only [readArrayOrObject]
    rw [h2 hd]
  · simp only [readArrayOrObject]
    rw [h3]

/-- C15: on a stream none of whose prefixes brings the depth counter (starting at 1)
down to 0, `readArrayOrObject` returns an error of the decoder, not `nil`: the error it
reports at the end of the stream, all of which has been read, when every lexeme is
delivered, and otherwise the error of the read that fails.  When this stream is the
rest of a sibling's value that `trackPath` skips, at a segment of any index and after
any number of fields with other names that it has passed over, `trackPath` returns that
same error of the decoder and leaves the decoder in the same state. -/
theorem readArrayOrObject_stream_ends (ts : List Token) (fail : Error)
    (h : ∀ n, depthAfter (ts.take n) ≠ 0) :
    (allDelivered ts = true → readArrayOrObject ⟨ts, fail⟩ = (some fail, ⟨[], fail⟩)) ∧
    (∃ e dec2, readArrayOrObject ⟨ts, fail⟩ = (some e, dec2) ∧
      (e = fail ∨ e = .unmarshalType ∨ e = .maxDepth)) ∧
    ∀ (field k : String) (d : Delim) (pre : List (String × Value)) (ps : List String),
      (∀ kv ∈ pre, kv.1 ≠ field) → k ≠ field → readableFields pre = true →
      (∀ len i fc, trackLoop len i (field :: ps) fc
          ⟨.delim .lbrace :: (fieldTokens pre ++ .str k :: .delim d :: ts), fail⟩ =
        readArrayOrObject ⟨ts, fail⟩) ∧
      trackPath ⟨.delim .lbrace :: (fieldTokens pre ++ .str k :: .delim d :: ts), fail⟩
          (field :: ps) = readArrayOrObject ⟨ts, fail⟩ := by
  obtain ⟨hd, e, dec2, hr, he⟩ := readArrayOrObject_unbalanced fail ts h
  refine ⟨hd, ⟨e, dec2, hr, he⟩, ?_⟩
  intro field k d pre ps hpre hk hread
  have hs : scanFields field fail (fieldTokens pre ++ .str k :: .delim d :: ts) =
      .ret e dec2 := by
    rw [scanFields_pre field fail pre hpre hread, scanFields_delim field fail k d ts hk, hr]
  have hloop : ∀ len i fc, trackLoop len i (field :: ps) fc
      ⟨.delim .lbrace :: (fieldTokens pre ++ .str k :: .delim d :: ts), fail⟩ =
        readArrayOrObject ⟨ts, fail⟩ := by
    intro len i fc
    rw [trackLoop, expectDelim_hit]
    simp only []
    rw [hs, hr]
  refine ⟨hloop, ?_⟩
  have hl : (field :: ps).length ≠ 0 := by simp
  rw [trackPath, if_neg hl]
  exact hloop _ 0 0

/-- Instance of C15: the skipped value opens a further array and the input ends. -/
theorem readArrayOrObject_stream_ends_witness :
    (∀ n, depthAfter (([.delim .lbrack, .num 1] : List Token).take n) ≠ 0) ∧
    allDelivered [.delim .lbrack, .num 1] = true ∧
    readArrayOrObject ⟨[.delim .lbrack, .num 1], .eof⟩ = (some .eof, ⟨[], .eof⟩) ∧
    trackPath ⟨.delim .lbrace :: (fieldTokens [] ++
        .str "x" :: .delim .lbrack :: [.delim .lbrack, .num 1]), .eof⟩ ["p1"] =
      (some .eof, ⟨[], .eof⟩) :=
  have h : ∀ n, depthAfter (([.delim .lbrack, .num 1] : List Token).take n) ≠ 0 := by
    intro n
    rcases n with _ | _ | _ | n <;> simp [depthAfter, delimDelta]
  ⟨h, rfl, (readArrayOrObject_stream_ends [.delim .lbrack, .num 1] .eof h).1 rfl,
    by rw [((readArrayOrObject_stream_ends [.delim .lbrack, .num 1] .eof h).2.2 "p1" "x"
      .lbrack [] [] (by simp) (by decide) rfl).2]; rfl⟩


/-- Every round of the skipping loop reads one token, except a last one whose read
fails. -/
theorem readLoopIters_le (fail : Error) (ts : List Token) :
    ∀ c : Nat, readLoopIters c ts + (readLoop fail c ts).2.length ≤
      ts.length + (if (readLoop fail c ts).1 = none then 0 else 1) := by
  induction ts with
  | nil => intro c; cases c <;> simp [readLoopIters, readLoop]
  | cons t ts ih =>
    intro c
    cases c with
    | zero => simp [readLoopIters, readLoop]
    | succ c =>
      rcases t with (d | s | n | b | _ | l | d)
      · cases d
        · have := ih (c + 2)
          simp only [readLoopIters, readLoop, List.length_cons]; omega
        · have := ih c
          simp only [readLoopIters, readLoop, List.length_cons]; omega
        · have := ih (c + 2)
          simp only [readLoopIters, readLoop, List.length_cons]; omega
        · have := ih c
          simp only [readLoopIters, readLoop, List.length_cons]; omega
      · have := ih (c + 1)
        simp only [readLoopIters, readLoop, List.length_cons]; omega
      · have := ih (c + 1)
        simp only [readLoopIters, readLoop, List.length_cons]; omega
      · have := ih (c + 1)
        simp only [readLoopIters, readLoop, List.length_cons]; omega
      · have := ih (c + 1)
        simp only [readLoopIters, readLoop, List.length_cons]; omega
      · simp [readLoopIters, readLoop]; omega
      · simp [readLoopIters, readLoop]; omega

theorem readArrayOrObjectIters_le (dec : Decoder) :
    readArrayOrObjectIters dec + (readArrayOrObject dec).2.toks.length ≤
      dec.toks.length + (if (readArrayOrObject dec).1 = none then 0 else 1) := by
  simpa [readArrayOrObjectIters, readArrayOrObject] using readLoopIters_le dec.fail dec.toks 1

theorem scanFieldsIters_delim (field : String) (fail : Error) (got : String) (d : Delim)
    (ts2 : List Token) (hk : got ≠ field) :
    scanFieldsIters field fail (.str got :: .delim d :: ts2) =
      match readArrayOrObject ⟨ts2, fail⟩ with
      | (some _, _) => (1 : Nat) + readArrayOrObjectIters ⟨ts2, fail⟩
      | (none, dec3) =>
        (1 : Nat) + readArrayOrObjectIters ⟨ts2, fail⟩ + scanFieldsIters field fail dec3.toks := by
  rw [scanFieldsIters.eq_def]
  simp only [hk, if_false]
  split <;> rename_i heq <;> simp [heq]

/-- Every round of the scanning loop, and of the skipping loops it starts, reads at
least one token, except a last one that returns. -/
theorem scanFieldsIters_le (field : String) (fail : Error) :
    ∀ (n : Nat) (ts : List Token), ts.length = n →
      scanFieldsIters field fail ts + (scanFields field fail ts).left ≤
        ts.length + (scanFields field fail ts).slack := by
  intro n
  induction n using Nat.strong_induction_on with
  | _ n ih =>
    intro ts hn
    cases ts with
    | nil =>
      rw [scanFields.eq_def, scanFieldsIters.eq_def]
      simp [Scan.left, Scan.slack]
    | cons t ts1 =>
      by_cases hcl : t = .delim .rbrace
      · subst hcl
        rw [scanFields.eq_def, scanFieldsIters.eq_def]
        simp [Scan.left, Scan.slack]; omega
      by_cases hhuge : ∃ l, t = .huge l
      · obtain ⟨l, rfl⟩ := hhuge
        rw [scanFields_huge, scanFieldsIters.eq_def]
        simp [Scan.left, Scan.slack]; omega
      by_cases hdeep : ∃ d, t = .deep d
      · obtain ⟨d, rfl⟩ := hdeep
        rw [scanFields_deep, scanFieldsIters.eq_def]
        simp [Scan.left, Scan.slack]; omega
      by_cases hstr : ∃ got, t = .str got
      · obtain ⟨got, rfl⟩ := hstr
        by_cases hk : got = field
        · subst hk
          rw [scanFields_hit, scanFieldsIters.eq_def]
          simp [Scan.left, Scan.slack]; omega
        · cases ts1 with
          | nil =>
            rw [scanFields.eq_def, scanFieldsIters.eq_def]
            simp [hk, Scan.left, Scan.slack]
          | cons t2 ts2 =>
            by_cases hd : ∃ d, t2 = .delim d
            · obtain ⟨d, rfl⟩ := hd
              rw [scanFields_delim field fail got d ts2 hk,
                scanFieldsIters_delim field fail got d ts2 hk]
              have hr := readArrayOrObjectIters_le ⟨ts2, fail⟩
              rcases hro : readArrayOrObject ⟨ts2, fail⟩ with ⟨e, dec3⟩
              rw [hro] at hr
              simp only [] at hr ⊢
              cases e with
              | some err =>
                simp at hr
                show 1 + readArrayOrObjectIters ⟨ts2, fail⟩ + dec3.toks.length ≤
                  ts2.length + 1 + 1 + 1
                omega
              | none =>
                simp at hr
                have hi := ih dec3.toks.length (by simp at hn; omega) dec3.toks rfl
                show 1 + readArrayOrObjectIters ⟨ts2, fail⟩ +
                    scanFieldsIters field fail dec3.toks +
                    (scanFields field fail dec3.toks).left ≤
                  ts2.length + 1 + 1 + (scanFields field fail dec3.toks).slack
                omega
            · by_cases hh2 : ∃ l, t2 = .huge l
              · obtain ⟨l, rfl⟩ := hh2
                rw [scanFields.eq_def, scanFieldsIters.eq_def]
                simp [hk, Scan.left, Scan.slack]; omega
              by_cases hd2 : ∃ d, t2 = .deep d
              · obtain ⟨d, rfl⟩ := hd2
                rw [scanFields.eq_def, scanFieldsIters.eq_def]
                simp [hk, Scan.left, Scan.slack]; omega
              have hs : scanFields field fail (.str got :: t2 :: ts2) =
                  scanFields field fail ts2 := by
                rw [scanFields.eq_def]
                rcases t2 with (d | s | m | b | _ | l | d)
                · exact absurd ⟨d, rfl⟩ hd
                · simp [hk]
                · simp [hk]
                · simp [hk]
                · simp [hk]
                · exact absurd ⟨l, rfl⟩ hh2
                · exact absurd ⟨d, rfl⟩ hd2
              have hc : scanFieldsIters field fail (.str got :: t2 :: ts2) =
                  1 + scanFieldsIters field fail ts2 := by
                rw [scanFieldsIters.eq_def]
                rcases t2 with (d | s | m | b | _ | l | d)
                · exact absurd ⟨d, rfl⟩ hd
                · simp [hk]
                · simp [hk]
                · simp [hk]
                · simp [hk]
                · exact absurd ⟨l, rfl⟩ hh2
                · exact absurd ⟨d, rfl⟩ hd2
              rw [hs, hc]
              have hi := ih ts2.length (by simp at hn; omega) ts2 rfl
              simp only [List.length_cons]
              omega
      · have hs : scanFields field fail (t :: ts1) = .ret (.fieldName t) ⟨ts1, fail⟩ :=
          scanFields_bad field fail t ts1 hcl (fun s hs => hstr ⟨s, hs⟩)
            (by
              rcases t with (d | s | m | b | _ | l | d)
              · rfl
              · rfl
              · rfl
              · rfl
              · rfl
              · exact absurd ⟨l, rfl⟩ hhuge
              · exact absurd ⟨d, rfl⟩ hdeep)
        have hc : scanFieldsIters field fail (t :: ts1) = 1 := by
          rw [scanFieldsIters.eq_def]
          rcases t with (d | s | m | b | _ | l | d)
          · cases d <;> simp at hcl ⊢
          · exact absurd ⟨s, rfl⟩ hstr
          all_goals simp
        rw [hs, hc]
        simp [Scan.left, Scan.slack]; omega

theorem expectDelim_length (dec : Decoder) (d : Delim) (dec1 : Decoder)
    (h : expectDelim dec d = (none, dec1)) : dec1.toks.length + 1 = dec.toks.length := by
  obtain ⟨toks, fail⟩ := dec
  cases toks with
  | nil => simp [expectDelim, Decoder.Token] at h
  | cons t ts =>
    by_cases ht : t = .delim d
    · subst ht
      rw [expectDelim_hit] at h
      simp only [Prod.mk.injEq, true_and] at h
      rw [← h]; simp
    · obtain ⟨e, he⟩ := expectDelim_other d t ts fail ht
      rw [he] at h
      simp at h

/-- The rounds of the segment loop and of all loops inside it number at most one more
than the tokens the decoder holds. -/
theorem trackLoopIters_le (ps : List String) :
    ∀ dec : Decoder, trackLoopIters ps dec ≤ dec.toks.length + 1 := by
  induction ps with
  | nil => intro dec; simp [trackLoopIters]
  | cons field rest ih =>
    intro dec
    rw [trackLoopIters]
    rcases he : expectDelim dec .lbrace with ⟨e, dec1⟩
    cases e with
    | some err => simp
    | none =>
      have hlen := expectDelim_length dec .lbrace dec1 he
      have hs := scanFieldsIters_le field dec1.fail dec1.toks.length dec1.toks rfl
      simp only []
      rcases hsc : scanFields field dec1.fail dec1.toks with _ | dec2 | dec2
      · rw [hsc] at hs
        simp only [Scan.left, Scan.slack] at hs
        simp only []
        omega
      · rw [hsc] at hs
        simp only [Scan.left, Scan.slack] at hs
        have := ih dec2
        simp only []
        omega
      · rw [hsc] at hs
        simp only [Scan.left, Scan.slack] at hs
        have := ih dec2
        simp only []
        omega

/-- C18: `trackPath` and `readArrayOrObject` are total functions of the decoder state,
and on a decoder holding finitely many tokens their loops make boundedly many rounds,
because a round reads at least one token or returns: all rounds of a call of
`trackPath` together (segment loop, field-scanning loop, skipping loops) number at most
the tokens held plus the length of the path; the rounds of a call of
`readArrayOrObject` number at most the tokens it reads, plus one for a last round whose
read fails when it returns an error. -/
theorem loops_terminate (dec : Decoder) (path : List String) :
    trackPathIters dec path ≤ dec.toks.length + path.length ∧
    readArrayOrObjectIters dec + (readArrayOrObject dec).2.toks.length ≤
      dec.toks.length + (if (readArrayOrObject dec).1 = none then 0 else 1) := by
  refine ⟨?_, readArrayOrObjectIters_le dec⟩
  rw [trackPathIters]
  split
  · omega
  · have := trackLoopIters_le path dec
    omega

end Jsonutil
